import Mathlib

/-!
Shallow embedding of the Cosmos Hub fee monitor (`hub_fee_monitor_v41.py`).

The scanner's pure logic is translated directly from the source: timestamp
normalization and date derivation, the retry/fallback HTTP policy, the
state-file handling, the fee/message extractors, the per-height scanning
loop and the daily-table merge.  Network effects are modelled as oracle
functions passed in as parameters (`rpc`, `lcd`), the transaction hash as
an opaque function parameter (`hashFn`, standing for
`tm_tx_hash_from_b64`), and file contents as explicit values.  Python
`int` is `Int`, Python `float` ratio columns are exact rationals, and
Python exceptions are `Except`/`Option` values.  The price/USD overlay
columns (`atom_price_usd_used`, `*_atom`, `*_usd`), recomputed every run
from the live price feed, are the external price-overlay collaborator and
are outside the scanner core modelled here.  Naive timestamps (without a
UTC-offset designator) are outside the model: their calendar date depends
on the host timezone.  Digit matching is modelled over ASCII digits.
-/

namespace HubMon

/-! ### Config constants (CONFIG section of the source) -/

def BLOCK_BATCH : Int := 60

def MAX_RETRIES : Nat := 3

def BACKOFF : ℚ := 4/5

/-! ### Small character/string helpers -/

def digitVal (c : Char) : Nat := c.toNat - 48

def digitsToNat (l : List Char) : Nat := l.foldl (fun a c => 10 * a + digitVal c) 0

def digitChar (n : Nat) : Char :=
  if n = 0 then '0' else if n = 1 then '1' else if n = 2 then '2'
  else if n = 3 then '3' else if n = 4 then '4' else if n = 5 then '5'
  else if n = 6 then '6' else if n = 7 then '7' else if n = 8 then '8'
  else if n = 9 then '9' else '*'

def pad2 (n : Nat) : List Char := [digitChar (n / 10 % 10), digitChar (n % 10)]

def pad4 (n : Nat) : List Char :=
  [digitChar (n / 1000 % 10), digitChar (n / 100 % 10), digitChar (n / 10 % 10), digitChar (n % 10)]

def isPySpace (c : Char) : Bool :=
  c == ' ' || c == '\t' || c == '\n' || c == '\r' || c == '\x0b' || c == '\x0c'

/-- Validated digit run after the leading digit of a Python int literal:
digits optionally separated by single underscores (`int("1_0") = 10`). -/
def digRest : List Char → Option (List Char)
  | [] => some []
  | '_' :: t =>
    match t with
    | c :: t' => if c.isDigit then (digRest t').map (c :: ·) else none
    | [] => none
  | c :: t => if c.isDigit then (digRest t).map (c :: ·) else none

def pyNatPart (cs : List Char) : Option Nat :=
  match cs with
  | c :: t => if c.isDigit then (digRest t).map (fun ds => digitsToNat (c :: ds)) else none
  | [] => none

/-- Model of Python `int(s)` on strings: optional surrounding whitespace,
optional sign, then a digit run (with underscore separators); anything
else raises, modelled as `none`. -/
def pyInt? (s : String) : Option Int :=
  let cs := ((s.toList.dropWhile isPySpace).reverse.dropWhile isPySpace).reverse
  match cs with
  | '+' :: rest => (pyNatPart rest).map (fun n => (n : Int))
  | '-' :: rest => (pyNatPart rest).map (fun n => -(n : Int))
  | rest => (pyNatPart rest).map (fun n => (n : Int))

/-! ### Timestamp normalization (`normalize_iso`, `parse_date`) -/

/-- Model of Python `ts.replace("Z", "+00:00")`. -/
def replaceZ : List Char → List Char
  | [] => []
  | c :: t =>
    if c = 'Z' then '+' :: '0' :: '0' :: ':' :: '0' :: '0' :: replaceZ t
    else c :: replaceZ t

/-- The trailing-timezone part of the regex `[+-]\d\d:\d\d`: exactly six
characters. -/
def tzPat (l : List Char) : Bool :=
  match l with
  | [s, a, b, c, d, e] =>
    (s == '+' || s == '-') && a.isDigit && b.isDigit && c == ':' && d.isDigit && e.isDigit
  | _ => false

/-- The `.*\.(\d+)` part of the regex applied to the text before the
timezone: succeeds iff a nonempty digit run ends the text and is preceded
by a literal dot, returning that digit run (the fractional seconds). -/
def fracOfA (A : List Char) : Option (List Char) :=
  let r := A.reverse
  let ds := r.takeWhile Char.isDigit
  match r.drop ds.length with
  | '.' :: _ => if ds.isEmpty then none else some ds.reverse
  | _ => none

/-- `(frac + "000000")[:6]`: pad or truncate the fractional digits to
exactly six. -/
def padTrunc6 (frac : List Char) : List Char :=
  (frac ++ ['0', '0', '0', '0', '0', '0']).take 6

def normCore (cs0 : List Char) : List Char :=
  let cs := replaceZ cs0
  if cs.length < 6 then cs
  else
    let A := cs.take (cs.length - 6)
    let tz := cs.drop (cs.length - 6)
    if tzPat tz then
      match fracOfA A with
      | some frac =>
        let baseNoFrac := cs.takeWhile (· != '.')
        baseNoFrac ++ '.' :: (padTrunc6 frac ++ tz)
      | none => cs
    else cs

/-- Translation of `normalize_iso`: replace `Z` by `+00:00`; if the result
matches `^(.*\.(\d+))([+-]\d\d:\d\d)$`, rebuild it as
`text-before-first-dot . frac-padded-to-6 tz`; otherwise return it
unchanged. -/
def normalize_iso (s : String) : String :=
  if s = "" then s else String.mk (normCore s.toList)

structure PyDT where
  y : Nat
  mo : Nat
  d : Nat
  hh : Nat
  mi : Nat
  ss : Nat
  offMin : Int
deriving DecidableEq, Repr

def parse2 : List Char → Option (Nat × List Char)
  | a :: b :: t =>
    if a.isDigit && b.isDigit then some (10 * digitVal a + digitVal b, t) else none
  | _ => none

def parse4 : List Char → Option (Nat × List Char)
  | a :: b :: c :: d :: t =>
    if a.isDigit && b.isDigit && c.isDigit && d.isDigit then
      some (digitsToNat [a, b, c, d], t)
    else none
  | _ => none

def expectC (ch : Char) : List Char → Option (List Char)
  | c :: t => if c == ch then some t else none
  | _ => none

/-- Optional fractional part of the time: pre-3.11 `fromisoformat`
accepts exactly 3 or 6 fractional digits (which is why the source
normalizes to 6).  The digits only need validating; the date does not
depend on them. -/
def parseFrac : List Char → Option (List Char)
  | '.' :: t =>
    let ds := t.takeWhile Char.isDigit
    if ds.length = 3 || ds.length = 6 then some (t.drop ds.length) else none
  | l => some l

/-- UTC offset `[+-]HH:MM`, required to end the string; `timezone()`
accepts any total strictly below 24 hours.  A missing offset (naive
datetime) is rejected by the model, since its date would depend on the
host timezone. -/
def parseOffset : List Char → Option Int
  | s :: r =>
    if s == '+' || s == '-' then
      (parse2 r).bind fun p =>
        (expectC ':' p.2).bind fun r3 =>
          (parse2 r3).bind fun q =>
            match q.2 with
            | [] =>
              let total : Int := 60 * (p.1 : Int) + (q.1 : Int)
              if total < 1440 then some (if s == '+' then total else -total) else none
            | _ => none
    else none
  | [] => none

def isLeap (y : Nat) : Bool := (y % 4 == 0 && y % 100 != 0) || y % 400 == 0

def daysInMonth (y m : Nat) : Nat :=
  if m = 1 then 31 else if m = 2 then (if isLeap y then 29 else 28)
  else if m = 3 then 31 else if m = 4 then 30 else if m = 5 then 31
  else if m = 6 then 30 else if m = 7 then 31 else if m = 8 then 31
  else if m = 9 then 30 else if m = 10 then 31 else if m = 11 then 30
  else if m = 12 then 31 else 0

def dtValid (t : PyDT) : Bool :=
  decide (1 ≤ t.y) && decide (t.y ≤ 9999) && decide (1 ≤ t.mo) && decide (t.mo ≤ 12) &&
  decide (1 ≤ t.d) && decide (t.d ≤ daysInMonth t.y t.mo) &&
  decide (t.hh ≤ 23) && decide (t.mi ≤ 59) && decide (t.ss ≤ 59)

/-- Model of pre-3.11 `datetime.fromisoformat` restricted to
offset-aware inputs: `YYYY-MM-DD` then any single separator character,
then `HH:MM:SS[.fff|.ffffff][+-]HH:MM`, with field ranges validated. -/
def parseIso (cs : List Char) : Option PyDT :=
  (parse4 cs).bind fun y =>
    (expectC '-' y.2).bind fun r2 =>
      (parse2 r2).bind fun mo =>
        (expectC '-' mo.2).bind fun r4 =>
          (parse2 r4).bind fun d =>
            match d.2 with
            | [] => none
            | _sep :: r6 =>
              (parse2 r6).bind fun hh =>
                (expectC ':' hh.2).bind fun r8 =>
                  (parse2 r8).bind fun mi =>
                    (expectC ':' mi.2).bind fun r10 =>
                      (parse2 r10).bind fun ss =>
                        (parseFrac ss.2).bind fun r12 =>
                          (parseOffset r12).bind fun off =>
                            let t : PyDT := ⟨y.1, mo.1, d.1, hh.1, mi.1, ss.1, off⟩
                            if dtValid t then some t else none

/-- Days since the Unix epoch of a civil date (standard civil-calendar
arithmetic, floor division throughout). -/
def toDays (y m d : Nat) : Int :=
  let yv : Int := if m ≤ 2 then (y : Int) - 1 else (y : Int)
  let era := yv.fdiv 400
  let yoe := yv - era * 400
  let mp : Int := ((m : Int) + 9) % 12
  let doy := (153 * mp + 2).fdiv 5 + (d : Int) - 1
  let doe := yoe * 365 + yoe.fdiv 4 - yoe.fdiv 100 + doy
  era * 146097 + doe - 719468

/-- Civil date of a count of days since the Unix epoch. -/
def fromDays (z0 : Int) : Nat × Nat × Nat :=
  let z := z0 + 719468
  let era := z.fdiv 146097
  let doe := z - era * 146097
  let yoe := (doe - doe.fdiv 1460 + doe.fdiv 36524 - doe.fdiv 146096).fdiv 365
  let yv := yoe + era * 400
  let doy := doe - (365 * yoe + yoe.fdiv 4 - yoe.fdiv 100)
  let mp := (5 * doy + 2).fdiv 153
  let d := doy - (153 * mp + 2).fdiv 5 + 1
  let m := if mp < 10 then mp + 3 else mp - 9
  let yv' := if m ≤ 2 then yv + 1 else yv
  (yv'.toNat, m.toNat, d.toNat)

def fmtDate (y m d : Nat) : String :=
  String.mk (pad4 y ++ '-' :: (pad2 m ++ '-' :: pad2 d))

def pyMinDay : Int := toDays 1 1 1

def pyMaxDay : Int := toDays 9999 12 31

/-- The UTC day of an offset-aware datetime: seconds since the epoch of
the named instant minus the offset, floor-divided by 86400. -/
def utcDayOf (t : PyDT) : Int :=
  (toDays t.y t.mo t.d * 86400 + ((t.hh * 3600 + t.mi * 60 + t.ss : Nat) : Int)
    - t.offMin * 60).fdiv 86400

/-- Translation of `parse_date`: normalize, parse, convert the instant to
UTC (`astimezone(timezone.utc)`) and render its calendar date; any
parse failure (or a UTC instant outside Python's date range, where
`astimezone` raises `OverflowError`) is `none`. -/
def parse_date (s : String) : Option String :=
  match parseIso (normalize_iso s).toList with
  | none => none
  | some t =>
    let uday := utcDayOf t
    if pyMinDay ≤ uday ∧ uday ≤ pyMaxDay then
      let c := fromDays uday
      some (fmtDate c.1 c.2.1 c.2.2)
    else none

/-! ### HTTP helpers (`request_with_retries`, `http_get_any`) -/

def exOk {ε α : Type} : Except ε α → Bool
  | .ok _ => true
  | .error _ => false

def errStr {α : Type} : Except String α → String
  | .error e => e
  | .ok _ => ""

/-- Retry loop body: attempts carry their 1-based index; each failure
records the error and sleeps `BACKOFF * i` before the next attempt; the
last error is raised when attempts run out.  The second component is the
trace of sleep delays. -/
def retryGo {α : Type} (f : Nat → Except String α) :
    List Nat → String → Except String α × List ℚ
  | [], last => (.error last, [])
  | i :: rest, _ =>
    match f i with
    | .ok r => (.ok r, [])
    | .error e =>
      let p := retryGo f rest e
      (p.1, BACKOFF * (i : ℚ) :: p.2)

/-- Translation of `request_with_retries`: `MAX_RETRIES` attempts with
linearly growing backoff.  `f i` is the outcome of the `i`-th attempt of
the underlying `requests.get` (including `raise_for_status`). -/
def request_with_retries {α : Type} (f : Nat → Except String α) :
    Except String α × List ℚ :=
  retryGo f (List.range' 1 MAX_RETRIES) ""

/-- Model of Python `base.rstrip("/")`. -/
def rstripSlash (s : String) : String :=
  String.mk ((s.toList.reverse.dropWhile (· == '/')).reverse)

def fmtErrLine (p : String × String) : String := "- " ++ p.1 ++ ": " ++ p.2

def joinLines : List String → String
  | [] => ""
  | [x] => x
  | x :: y :: xs => x ++ "\n" ++ joinLines (y :: xs)

def aggErrMsg (errs : List (String × String)) : String :=
  "Tous les endpoints ont échoué:\n" ++ joinLines (errs.map fmtErrLine)

def httpGetAnyGo {α : Type} (net : String → Nat → Except String α) (path : String) :
    List String → List (String × String) → Except String (α × String)
  | [], errs => .error (aggErrMsg errs)
  | b :: rest, errs =>
    match (request_with_retries (net (rstripSlash b ++ path))).1 with
    | .ok r => .ok (r, b)
    | .error e => httpGetAnyGo net path rest (errs ++ [(b, e)])

/-- Translation of `http_get_any`: try each base URL in order with
`request_with_retries`; return the first success together with the base
used; if every base is exhausted, raise an aggregated error listing every
base with its last failure.  `net url i` is the outcome of attempt `i` of
a GET against `url`. -/
def http_get_any {α : Type} (bases : List String) (net : String → Nat → Except String α)
    (path : String) : Except String (α × String) :=
  httpGetAnyGo net path bases []

/-! ### State file (`load_state`, `save_state`) -/

/-- Content of `state_fee_v41.json` as seen by `load_state`: missing
file, unreadable file (JSON parse error), or a readable object whose
`last_height` entry is absent/null (`none`) or an integer. -/
inductive StateFile where
  | missing
  | corrupt
  | val (lastHeight : Option Int)
deriving DecidableEq, Repr

/-- Translation of `load_state` combined with the truthiness check in
`main`: a usable watermark exists iff the file is readable and carries a
non-null `last_height`. -/
def load_state : StateFile → Option Int
  | .missing => none
  | .corrupt => none
  | .val x => x

/-! ### Extractors (`is_ibc_tx`, `fee_uatom_from_lcd_tx`) -/

structure FeeEntry where
  denom : String
  amount : String
deriving DecidableEq, Repr

structure LcdTx where
  feeAmounts : List FeeEntry
  msgTypes : List String
deriving DecidableEq, Repr

def listStarts : List Char → List Char → Bool
  | [], _ => true
  | _ :: _, [] => false
  | a :: as, b :: bs => a == b && listStarts as bs

/-- Translation of `is_ibc_tx`: some message type tag starts with
`/ibc.`. -/
def is_ibc_tx (t : LcdTx) : Bool :=
  t.msgTypes.any (fun s => listStarts "/ibc.".toList s.toList)

/-- Translation of `fee_uatom_from_lcd_tx`: sum the `uatom`-denominated
fee amounts; an entry whose amount does not parse as an integer is
silently skipped (`except: pass` in the source). -/
def fee_uatom_from_lcd_tx (t : LcdTx) : Int :=
  t.feeAmounts.foldl
    (fun acc a =>
      if a.denom = "uatom" then
        match pyInt? a.amount with
        | some v => acc + v
        | none => acc
      else acc)
    0

/-! ### The scanning loop and daily aggregation (`main`) -/

structure Bucket where
  tx_total : Nat
  tx_ibc : Nat
  total_fee_uatom : Int
  ibc_fee_uatom : Int
  lcd_errors : Nat
deriving DecidableEq, Repr

def zeroBucket : Bucket := ⟨0, 0, 0, 0, 0⟩

def bAdd (a b : Bucket) : Bucket :=
  ⟨a.tx_total + b.tx_total, a.tx_ibc + b.tx_ibc,
   a.total_fee_uatom + b.total_fee_uatom, a.ibc_fee_uatom + b.ibc_fee_uatom,
   a.lcd_errors + b.lcd_errors⟩

/-- The block data used by `main`: `header.time` and the base64-coded
transaction payloads `data.txs` (missing list read as empty). -/
structure BlockData where
  time : String
  txs : List String
deriving DecidableEq, Repr

/-- The effectful collaborators of one run, as oracles: `rpc h` is the
outcome of `rpc_block(h)`, `lcd k` the outcome of
`lcd_get_tx_by_hash(k)`, and `hashFn` stands for the pure
`tm_tx_hash_from_b64`. -/
structure Oracles where
  rpc : Int → Except String BlockData
  lcd : String → Except String LcdTx
  hashFn : String → String

/-- The try-block at the top of the height loop: fetch the block, derive
its date (a `parse_date` failure raises inside the same try) and its
transaction list. -/
def fetchBlock (o : Oracles) (h : Int) : Except String (String × List String) :=
  match o.rpc h with
  | .error e => .error e
  | .ok b =>
    match parse_date b.time with
    | none => .error "timestamp"
    | some d => .ok (d, b.txs)

/-- The in-memory `by_date` accumulator: insertion-ordered, one bucket
per date. -/
def ByDate := List (String × Bucket)

def bdGet : ByDate → String → Bucket
  | [], _ => zeroBucket
  | (d', b) :: t, d => if d' = d then b else bdGet t d

def bdSet : ByDate → String → Bucket → ByDate
  | [], d, b => [(d, b)]
  | (d', b') :: t, d, b => if d' = d then (d, b) :: t else (d', b') :: bdSet t d b

/-- The inner per-transaction loop: fetch each hash from the LCD; on the
first failure increment the date's `lcd_errors` and report failure
(`hashes = None; break` in the source); on success fold the fee and the
cross-chain classification into the bucket. -/
def processTxs (o : Oracles) : List String → Bucket → Bool × Bucket
  | [], b => (true, b)
  | k :: rest, b =>
    match o.lcd k with
    | .error _ => (false, { b with lcd_errors := b.lcd_errors + 1 })
    | .ok tx =>
      let fu := fee_uatom_from_lcd_tx tx
      let b1 := { b with total_fee_uatom := b.total_fee_uatom + fu }
      let b2 :=
        if is_ibc_tx tx then
          { b1 with tx_ibc := b1.tx_ibc + 1, ibc_fee_uatom := b1.ibc_fee_uatom + fu }
        else b1
      processTxs o rest b2

/-- One iteration of the height loop: on block-fetch (or date-parse)
failure leave `by_date` untouched and report failure; otherwise add the
block's transaction count to its date's bucket and run the
per-transaction loop. -/
def scanStep (o : Oracles) (bd : ByDate) (h : Int) : ByDate × Bool :=
  match fetchBlock o h with
  | .error _ => (bd, false)
  | .ok pr =>
    let hashes := pr.2.map o.hashFn
    let b0 := bdGet bd pr.1
    let b1 := { b0 with tx_total := b0.tx_total + hashes.length }
    let r := processTxs o hashes b1
    (bdSet bd pr.1 r.2, r.1)

/-- The height loop: process heights in order; after each fully
successful height call `save_state(height)` (recorded in the `saves`
trace); on the first failure stop scanning (`break`). -/
def scanLoop (o : Oracles) : List Int → ByDate → List Int → ByDate × List Int
  | [], bd, saves => (bd, saves)
  | h :: rest, bd, saves =>
    let r := scanStep o bd h
    if r.2 then scanLoop o rest r.1 (saves ++ [h]) else (r.1, saves)

/-- A height succeeds wholly: the block fetch and date derivation
succeed and every transaction detail fetch succeeds. -/
def heightOk (o : Oracles) (h : Int) : Bool :=
  match fetchBlock o h with
  | .error _ => false
  | .ok pr => (pr.2.map o.hashFn).all (fun k => exOk (o.lcd k))

/-- One row of the daily table (the §3 columns: bucket fields plus the
two derived ratio columns). -/
structure Row where
  date : String
  tx_total : Nat
  tx_ibc : Nat
  tx_ibc_ratio_pct : ℚ
  total_fee_uatom : Int
  ibc_fee_uatom : Int
  ibc_fee_share_pct : ℚ
  lcd_errors : Nat
deriving DecidableEq, Repr

/-- Build a row from a date's additive fields, computing the two ratio
columns (0 when the corresponding total is falsy, i.e. zero). -/
def mkRow (d : String) (v : Bucket) : Row :=
  { date := d
    tx_total := v.tx_total
    tx_ibc := v.tx_ibc
    tx_ibc_ratio_pct :=
      if v.tx_total = 0 then 0 else (v.tx_ibc : ℚ) / (v.tx_total : ℚ) * 100
    total_fee_uatom := v.total_fee_uatom
    ibc_fee_uatom := v.ibc_fee_uatom
    ibc_fee_share_pct :=
      if v.total_fee_uatom = 0 then 0
      else (v.ibc_fee_uatom : ℚ) / (v.total_fee_uatom : ℚ) * 100
    lcd_errors := v.lcd_errors }

def rowLe (a b : Row) : Prop := a.date ≤ b.date

instance : DecidableRel rowLe := fun a b => inferInstanceAs (Decidable (a.date ≤ b.date))

def keyLe (a b : String × Bucket) : Prop := a.1 ≤ b.1

instance : DecidableRel keyLe := fun a b => inferInstanceAs (Decidable (a.1 ≤ b.1))

/-- `rows` construction of the run's own dataframe: `sorted(by_date.items())`
then one row per date with its ratios. -/
def rowsOf (bd : ByDate) : List Row :=
  (List.insertionSort keyLe bd).map (fun p => mkRow p.1 p.2)

def addOf (r : Row) : Bucket :=
  ⟨r.tx_total, r.tx_ibc, r.total_fee_uatom, r.ibc_fee_uatom, r.lcd_errors⟩

/-- Column-wise sums of the additive fields over all rows of a given
date (what `groupby("date").sum()` computes for that date). -/
def sumAt (rs : List Row) (d : String) : Bucket :=
  let l := rs.filter (fun r => r.date == d)
  ⟨(l.map Row.tx_total).sum, (l.map Row.tx_ibc).sum, (l.map Row.total_fee_uatom).sum,
   (l.map Row.ibc_fee_uatom).sum, (l.map Row.lcd_errors).sum⟩

def dedupSort (l : List String) : List String :=
  List.insertionSort (· ≤ ·) l.dedup

def datesOf (rs : List Row) : List String := rs.map Row.date

def keysOf (rs : List Row) : List String := dedupSort (datesOf rs)

/-- Translation of the merge branch (lines 274-282): concatenate the old
table with the new rows, group by date summing every numeric column, then
recompute both ratio columns from the summed totals (the summed ratio
columns are overwritten, never kept). -/
def mergeTables (old new : List Row) : List Row :=
  let all := old ++ new
  (dedupSort (datesOf all)).map (fun d => mkRow d (sumAt all d))

def sortRows (rs : List Row) : List Row := List.insertionSort rowLe rs

def computeStart (sf : StateFile) (latest : Int) : Int :=
  match load_state sf with
  | some w => w + 1
  | none => max 1 (latest - BLOCK_BATCH)

def computeEnd (latest start : Int) : Int := min latest (start + BLOCK_BATCH)

def intRange (a b : Int) : List Int :=
  (List.range (b + 1 - a).toNat).map (fun (i : Nat) => a + (i : Int))

/-- One whole invocation of `main` (its pure core): the chain's latest
height (from `/status`), the state file, the oracles and the previously
persisted daily table (`None` when `hub_revenue_daily.csv` does not
exist). -/
structure RunInput where
  latest : Int
  stateFile : StateFile
  oracles : Oracles
  oldTable : Option (List Row)

/-- Translation of `main` (lines 190-291, price overlay aside): compute
the scan range, run the height loop, build this run's rows, merge with
the previous table when one exists, sort by date, and leave the state
file at the last saved height (or untouched when no height completed). -/
def mainRun (inp : RunInput) : List Row × StateFile :=
  let start := computeStart inp.stateFile inp.latest
  let e := computeEnd inp.latest start
  let r := scanLoop inp.oracles (intRange start e) [] []
  let dfNew := rowsOf r.1
  let df :=
    match inp.oldTable with
    | some old => mergeTables old dfNew
    | none => dfNew
  let st :=
    match r.2.getLast? with
    | some h => StateFile.val (some h)
    | none => inp.stateFile
  (sortRows df, st)

/-! ### Derived quantities used in specification statements -/

/-- The bucket contribution of one successfully fetched transaction: its
fee always goes to the total, and to the cross-chain figures when some
message tag carries the `/ibc.` namespace. -/
def txOkDelta (tx : LcdTx) : Bucket :=
  let fu := fee_uatom_from_lcd_tx tx
  if is_ibc_tx tx then ⟨0, 1, fu, fu, 0⟩ else ⟨0, 0, fu, 0, 0⟩

def lcdStep (o : Oracles) (acc : Bucket) (k : String) : Bucket :=
  match o.lcd k with
  | .ok tx => bAdd acc (txOkDelta tx)
  | .error _ => acc

/-- Summed contributions of the successfully fetched hashes of a list. -/
def lcdOkDelta (o : Oracles) (ks : List String) : Bucket :=
  ks.foldl (lcdStep o) zeroBucket

/-- The whole bucket contribution of a fully successful height with the
given transaction payloads: the transaction count plus every
transaction's delta. -/
def heightDelta (o : Oracles) (txs : List String) : Bucket :=
  bAdd ⟨(txs.map o.hashFn).length, 0, 0, 0, 0⟩ (lcdOkDelta o (txs.map o.hashFn))

/-- `by_date` update performed by one (possibly failing) height. -/
def stepBd (o : Oracles) (bd : ByDate) (h : Int) : ByDate := (scanStep o bd h).1

/-- Effect of the first failing height (if any) on `by_date`: the loop
stops there, after that height's partial updates. -/
def scanTail (o : Oracles) (rest : List Int) (bd : ByDate) : ByDate :=
  match rest with
  | [] => bd
  | h :: _ => stepBd o bd h

/-- A row's derived ratio columns agree with the ratios recomputed from
its own additive fields. -/
def ratioOkB (r : Row) : Bool :=
  decide (r.tx_ibc_ratio_pct =
      (if r.tx_total = 0 then (0 : ℚ) else (r.tx_ibc : ℚ) / (r.tx_total : ℚ) * 100)) &&
  decide (r.ibc_fee_share_pct =
      (if r.total_fee_uatom = 0 then (0 : ℚ)
       else (r.ibc_fee_uatom : ℚ) / (r.total_fee_uatom : ℚ) * 100))

/-- Computation twin of `mkRow` whose ratio fields use `Rat.divInt`
(which the kernel can evaluate, unlike `Rat.div`); proved equal to
`mkRow` below and used to evaluate concrete runs. -/
def mkRowD (d : String) (v : Bucket) : Row :=
  { date := d
    tx_total := v.tx_total
    tx_ibc := v.tx_ibc
    tx_ibc_ratio_pct :=
      if v.tx_total = 0 then 0 else Rat.divInt (100 * (v.tx_ibc : Int)) (v.tx_total : Int)
    total_fee_uatom := v.total_fee_uatom
    ibc_fee_uatom := v.ibc_fee_uatom
    ibc_fee_share_pct :=
      if v.total_fee_uatom = 0 then 0
      else Rat.divInt (100 * v.ibc_fee_uatom) v.total_fee_uatom
    lcd_errors := v.lcd_errors }

/-- Computation twin of `mainRun` built on `mkRowD`. -/
def mainRunD (inp : RunInput) : List Row × StateFile :=
  let start := computeStart inp.stateFile inp.latest
  let e := computeEnd inp.latest start
  let r := scanLoop inp.oracles (intRange start e) [] []
  let dfNew := (List.insertionSort keyLe r.1).map (fun p => mkRowD p.1 p.2)
  let df :=
    match inp.oldTable with
    | some old => (dedupSort (datesOf (old ++ dfNew))).map (fun d => mkRowD d (sumAt (old ++ dfNew) d))
    | none => dfNew
  let st :=
    match r.2.getLast? with
    | some h => StateFile.val (some h)
    | none => inp.stateFile
  (sortRows df, st)

/-- A row's date together with its additive (non-derived) fields: what
the merge is allowed to depend on. -/
def stripR (r : Row) : String × Bucket := (r.date, addOf r)

/-- Column-wise sums of additive fields over `(date, bucket)` pairs. -/
def sumAtP (l : List (String × Bucket)) (d : String) : Bucket :=
  let f := l.filter (fun p => p.1 == d)
  ⟨(f.map (fun p => p.2.tx_total)).sum, (f.map (fun p => p.2.tx_ibc)).sum,
   (f.map (fun p => p.2.total_fee_uatom)).sum, (f.map (fun p => p.2.ibc_fee_uatom)).sum,
   (f.map (fun p => p.2.lcd_errors)).sum⟩

/-- The keys (dates) of the in-memory accumulator, in insertion order. -/
def bdKeys (bd : ByDate) : List String := bd.map Prod.fst

def contribStep (o : Oracles) (d : String) (acc : Bucket) (h : Int) : Bucket :=
  match fetchBlock o h with
  | .ok pr => if pr.1 = d then bAdd acc (heightDelta o pr.2) else acc
  | .error _ => acc

/-- Summed bucket contribution of a list of fully successful heights to
one calendar date. -/
def contribSum (o : Oracles) (hs : List Int) (d : String) : Bucket :=
  hs.foldl (contribStep o d) zeroBucket

/-- The calendar date a height lands on, when its block fetch succeeds. -/
def okDate (o : Oracles) (h : Int) : Option String :=
  (fetchBlock o h).toOption.map Prod.fst

/-- The date-and-time part of a well-formed timestamp, before the
fractional seconds. -/
def tsBase (y mo d hh mi ss : Nat) : List Char :=
  pad4 y ++ '-' :: (pad2 mo ++ '-' :: (pad2 d ++ 'T' ::
    (pad2 hh ++ ':' :: (pad2 mi ++ ':' :: pad2 ss))))

/-- A well-formed block timestamp string with an arbitrary-length
fractional part and a `[+-]HH:MM` offset. -/
def fmtTs (y mo d hh mi ss : Nat) (frac : List Char) (sgn : Char) (oh om : Nat) : String :=
  String.mk (tsBase y mo d hh mi ss ++ '.' ::
    (frac ++ sgn :: (pad2 oh ++ ':' :: pad2 om)))

/-- A well-formed block timestamp string with an arbitrary-length
fractional part and the `Z` UTC designator. -/
def fmtTsZ (y mo d hh mi ss : Nat) (frac : List Char) : String :=
  String.mk (tsBase y mo d hh mi ss ++ '.' :: (frac ++ ['Z']))

/-- Signed offset in minutes denoted by `[+-]HH:MM`. -/
def offsetMin (sgn : Char) (oh om : Nat) : Int :=
  if sgn == '+' then 60 * (oh : Int) + om else -(60 * (oh : Int) + om)

/-! ### Concrete scenarios used to settle individual claims -/

/-- Scenario: every endpoint is down. -/
def oDown : Oracles :=
  { rpc := fun _ => .error "down", lcd := fun _ => .error "down", hashFn := id }

/-- Scenario: block 100 has two transactions; the detail fetch succeeds
for the first (fee 500 uatom) and fails for the second. -/
def oPartial : Oracles :=
  { rpc := fun h =>
      if h = 100 then .ok ⟨"2024-01-02T03:04:05.123+00:00", ["t1", "t2"]⟩ else .error "down"
    lcd := fun k =>
      if k = "K1" then .ok ⟨[⟨"uatom", "500"⟩], ["/cosmos.bank.v1beta1.MsgSend"]⟩
      else .error "lcd down"
    hashFn := fun s => if s = "t1" then "K1" else "K2" }

/-- Scenario: block 100 has one transaction whose only fee entry has an
unparseable amount string. -/
def oBadAmount : Oracles :=
  { rpc := fun h =>
      if h = 100 then .ok ⟨"2024-01-02T03:04:05.123+00:00", ["t1"]⟩ else .error "down"
    lcd := fun _ => .ok ⟨[⟨"uatom", "12abc"⟩], []⟩
    hashFn := fun s => s }

/-- Scenario: four single-transaction blocks 100..103 on one calendar
date; the transaction of block 101 is cross-chain; fees are the height
number. -/
def oFour : Oracles :=
  { rpc := fun h =>
      if 100 ≤ h ∧ h ≤ 103 then .ok ⟨"2024-01-02T03:04:05.123+00:00", [toString h]⟩
      else .error "down"
    lcd := fun k => .ok ⟨[⟨"uatom", k⟩], if k = "101" then ["/ibc.x"] else []⟩
    hashFn := fun s => s }

/-! ### Evaluation lemmas for the ratio columns -/

theorem ratio_divInt (i t : Int) : (i : ℚ) / (t : ℚ) * 100 = Rat.divInt (100 * i) t := by
  rw [Rat.divInt_eq_div]
  push_cast
  ring

theorem mkRow_eq_mkRowD : mkRow = mkRowD := by
  funext d v
  simp only [mkRow, mkRowD]
  congr 1
  · rw [show ((v.tx_ibc : ℚ) : ℚ) / (v.tx_total : ℚ) * 100 =
        Rat.divInt (100 * (v.tx_ibc : Int)) (v.tx_total : Int) from by push_cast [← ratio_divInt]; ring_nf]
  · rw [ratio_divInt]

theorem mainRun_eq_mainRunD (inp : RunInput) : mainRun inp = mainRunD inp := by
  simp only [mainRun, mainRunD, rowsOf, mergeTables, mkRow_eq_mkRowD]

/-! ### Bucket algebra -/

theorem bAdd_zero (a : Bucket) : bAdd a zeroBucket = a := by
  cases a; simp [bAdd, zeroBucket]

theorem zero_bAdd (a : Bucket) : bAdd zeroBucket a = a := by
  cases a; simp [bAdd, zeroBucket]

theorem bAdd_assoc (a b c : Bucket) : bAdd (bAdd a b) c = bAdd a (bAdd b c) := by
  cases a; cases b; cases c; simp [bAdd, add_assoc]

/-! ### Per-transaction loop lemmas -/

theorem processTxs_fst (o : Oracles) (ks : List String) (b : Bucket) :
    (processTxs o ks b).1 = ks.all (fun k => exOk (o.lcd k)) := by
  induction ks generalizing b with
  | nil => simp [processTxs]
  | cons k rest ih =>
    simp only [processTxs, List.all_cons]
    cases hk : o.lcd k with
    | error e => simp [exOk]
    | ok tx => simp [exOk, ih]

theorem foldDelta_shift (o : Oracles) (ks : List String) (t : Bucket) :
    ks.foldl (lcdStep o) t = bAdd t (lcdOkDelta o ks) := by
  induction ks generalizing t with
  | nil => simp [lcdOkDelta, bAdd_zero]
  | cons x xs ihx =>
    simp only [lcdOkDelta, List.foldl_cons] at *
    rw [ihx (lcdStep o t x), ihx (lcdStep o zeroBucket x)]
    cases hlx : o.lcd x <;> simp [lcdStep, hlx, zero_bAdd, bAdd_assoc]

theorem lcdOkDelta_cons (o : Oracles) (k : String) (ks : List String) (tx : LcdTx)
    (hlk : o.lcd k = .ok tx) :
    lcdOkDelta o (k :: ks) = bAdd (txOkDelta tx) (lcdOkDelta o ks) := by
  simp only [lcdOkDelta, List.foldl_cons]
  rw [foldDelta_shift]
  simp [lcdStep, hlk, zero_bAdd, lcdOkDelta]

theorem txStep_eq (b : Bucket) (tx : LcdTx) :
    (if is_ibc_tx tx then
        { b with total_fee_uatom := b.total_fee_uatom + fee_uatom_from_lcd_tx tx,
                 tx_ibc := b.tx_ibc + 1,
                 ibc_fee_uatom := b.ibc_fee_uatom + fee_uatom_from_lcd_tx tx }
      else { b with total_fee_uatom := b.total_fee_uatom + fee_uatom_from_lcd_tx tx }) =
      bAdd b (txOkDelta tx) := by
  cases hibc : is_ibc_tx tx <;> cases b <;> simp [txOkDelta, hibc, bAdd]

theorem processTxs_ok (o : Oracles) (ks : List String) (b : Bucket)
    (h : ∀ k ∈ ks, exOk (o.lcd k) = true) :
    processTxs o ks b = (true, bAdd b (lcdOkDelta o ks)) := by
  induction ks generalizing b with
  | nil => simp [processTxs, lcdOkDelta, bAdd_zero]
  | cons k rest ih =>
    have hk := h k (by simp)
    cases hlk : o.lcd k with
    | error e => simp [hlk, exOk] at hk
    | ok tx =>
      have hrest : ∀ x ∈ rest, exOk (o.lcd x) = true := fun x hx => h x (by simp [hx])
      simp only [processTxs, hlk]
      rw [ih _ hrest, lcdOkDelta_cons o k rest tx hlk]
      have hstep := txStep_eq b tx
      cases hibc : is_ibc_tx tx <;>
        simp only [hibc, if_pos, if_true, if_false, Bool.false_eq_true] at hstep ⊢ <;>
        rw [hstep, bAdd_assoc]

theorem processTxs_fail (o : Oracles) (good : List String) (bad : String)
    (rest : List String) (b : Bucket)
    (hg : ∀ k ∈ good, exOk (o.lcd k) = true) (hb : exOk (o.lcd bad) = false) :
    processTxs o (good ++ bad :: rest) b =
      (false, bAdd b (bAdd (lcdOkDelta o good) ⟨0, 0, 0, 0, 1⟩)) := by
  induction good generalizing b with
  | nil =>
    cases hlk : o.lcd bad with
    | ok tx => simp [hlk, exOk] at hb
    | error e =>
      cases b
      simp [processTxs, hlk, lcdOkDelta, zero_bAdd, bAdd, zeroBucket]
  | cons k ks ih =>
    have hk := hg k (by simp)
    cases hlk : o.lcd k with
    | error e => simp [hlk, exOk] at hk
    | ok tx =>
      have hks : ∀ x ∈ ks, exOk (o.lcd x) = true := fun x hx => hg x (by simp [hx])
      have hstep := txStep_eq b tx
      simp only [List.cons_append, processTxs, hlk, List.append_eq]
      cases hibc : is_ibc_tx tx <;>
        simp only [hibc, if_true, if_false, Bool.false_eq_true] at hstep ⊢ <;>
        rw [hstep, ih _ hks, lcdOkDelta_cons o k ks tx hlk] <;> simp [bAdd_assoc]

/-! ### Height-loop lemmas -/

theorem scanStep_snd (o : Oracles) (bd : ByDate) (h : Int) :
    (scanStep o bd h).2 = heightOk o h := by
  simp only [scanStep, heightOk]
  cases hfb : fetchBlock o h with
  | error e => rfl
  | ok pr => simp [processTxs_fst]

theorem scanLoop_saves (o : Oracles) (hs : List Int) :
    ∀ (bd : ByDate) (saves : List Int),
      (scanLoop o hs bd saves).2 = saves ++ hs.takeWhile (heightOk o) := by
  induction hs with
  | nil => intro bd saves; simp [scanLoop]
  | cons h t ih =>
    intro bd saves
    simp only [scanLoop, scanStep_snd, List.takeWhile_cons]
    cases hok : heightOk o h with
    | false => simp
    | true => simp [ih]

theorem scanLoop_bd (o : Oracles) (hs : List Int) :
    ∀ (bd : ByDate) (saves : List Int),
      (scanLoop o hs bd saves).1 =
        scanTail o (hs.dropWhile (heightOk o))
          ((hs.takeWhile (heightOk o)).foldl (stepBd o) bd) := by
  induction hs with
  | nil => intro bd saves; simp [scanLoop, scanTail]
  | cons h t ih =>
    intro bd saves
    simp only [scanLoop, scanStep_snd, List.takeWhile_cons, List.dropWhile_cons]
    cases hok : heightOk o h with
    | false => simp [scanTail, stepBd]
    | true => simp [ih, stepBd]

/-- C2.  Watermark advance invariant.  First conjunct: the heights for
which `save_state` runs are exactly the maximal fully-successful
(`heightOk`) initial segment of the scanned range, so `save(H)` happens
only when block `H`'s fetch and every one of its transaction-detail
fetches succeeded, and never after an earlier failure.  Second conjunct:
the `by_date` accumulator is the fold of the completed heights (each
folded before its save) followed by the partial effect of the first
failing height only.  Third conjunct: the persisted watermark file ends
at the last fully-completed height, and is left untouched when no height
completed. -/
theorem watermark_advance_invariant :
    (∀ (o : Oracles) (hs : List Int) (bd : ByDate),
        (scanLoop o hs bd []).2 = hs.takeWhile (heightOk o)) ∧
    (∀ (o : Oracles) (hs : List Int) (bd : ByDate),
        (scanLoop o hs bd []).1 =
          scanTail o (hs.dropWhile (heightOk o))
            ((hs.takeWhile (heightOk o)).foldl (stepBd o) bd)) ∧
    (∀ inp : RunInput,
        (mainRun inp).2 =
          match ((intRange (computeStart inp.stateFile inp.latest)
                (computeEnd inp.latest (computeStart inp.stateFile inp.latest))).takeWhile
                (heightOk inp.oracles)).getLast? with
          | some h => StateFile.val (some h)
          | none => inp.stateFile) := by
  refine ⟨fun o hs bd => by simpa using scanLoop_saves o hs bd [], ?_, ?_⟩
  · exact fun o hs bd => scanLoop_bd o hs bd []
  · intro inp
    simp only [mainRun]
    rw [scanLoop_saves]
    simp

/-- C1 counterexample.  Block 100 has two transactions; the detail fetch
fails on the second.  The claim says that then nothing of block 100 may
reach the Daily Bucket of its date or the persisted daily table; but the
run's final table contains a row for that date with the full transaction
count 2 and the fee 500 of the first transaction, while the watermark
stays at 99.  The claim as stated is therefore false. -/
theorem atomic_height_commit_cx :
    mainRun ⟨100, .val (some 99), oPartial, none⟩ =
      ([⟨"2024-01-02", 2, 0, 0, 500, 0, 0, 1⟩], .val (some 99)) ∧
    ((mainRun ⟨100, .val (some 99), oPartial, none⟩).1.any
        (fun r => r.date == "2024-01-02" && decide (0 < r.tx_total) &&
          decide (0 < r.total_fee_uatom)) = true) := by
  constructor
  · rw [mainRun_eq_mainRunD]; rfl
  · rw [mainRun_eq_mainRunD]; rfl

/-- C1 amended.  If the detail fetch for the k-th transaction of block H
fails, the run stops scanning immediately and the watermark is not
advanced for H (the previously saved height remains the resume point),
but the Daily Bucket of H's date does retain block H's full transaction
count, the fees of transactions 1..k-1 and one fetch-failure count, and
this bucket is persisted by the end-of-run merge. -/
theorem atomic_height_commit_amended
    (o : Oracles) (h : Int) (more : List Int) (bd : ByDate) (saves : List Int)
    (date : String) (txs : List String) (good : List String) (bad : String)
    (rest : List String)
    (hfb : fetchBlock o h = .ok (date, txs))
    (hmap : txs.map o.hashFn = good ++ bad :: rest)
    (hg : ∀ k ∈ good, exOk (o.lcd k) = true)
    (hb : exOk (o.lcd bad) = false) :
    scanLoop o (h :: more) bd saves =
      (bdSet bd date
        (bAdd (bdGet bd date)
          (bAdd ⟨txs.length, 0, 0, 0, 0⟩
            (bAdd (lcdOkDelta o good) ⟨0, 0, 0, 0, 1⟩))), saves) := by
  have hstep : scanStep o bd h =
      (bdSet bd date
        (bAdd (bdGet bd date)
          (bAdd ⟨txs.length, 0, 0, 0, 0⟩
            (bAdd (lcdOkDelta o good) ⟨0, 0, 0, 0, 1⟩))), false) := by
    simp only [scanStep, hfb, hmap]
    rw [processTxs_fail o good bad rest _ hg hb]
    have hlen : (txs.map o.hashFn).length = txs.length := by simp
    rw [hmap] at hlen
    refine Prod.ext ?_ rfl
    simp only []
    congr 1
    cases hbd : bdGet bd date
    simp [bAdd, hlen, add_assoc]
  simp only [scanLoop, hstep]
  simp

/-- Witness for the amended C1 theorem at the concrete failing-block
scenario. -/
theorem atomic_height_commit_amended_witness :
    scanLoop oPartial [100] [] [] =
      (bdSet [] "2024-01-02"
        (bAdd (bdGet [] "2024-01-02")
          (bAdd ⟨2, 0, 0, 0, 0⟩
            (bAdd (lcdOkDelta oPartial ["K1"]) ⟨0, 0, 0, 0, 1⟩))), []) :=
  atomic_height_commit_amended oPartial 100 [] [] [] "2024-01-02" ["t1", "t2"]
    ["K1"] "K2" [] (by rfl) (by rfl) (by decide) (by rfl)

/-- C7 counterexample.  The transaction of block 100 has a single fee
entry whose amount string `12abc` does not parse as an integer.  The
claim says malformed source data must fail loudly; instead the height
completes successfully (`heightOk`), the transaction is counted with fee
contribution 0, the watermark advances to 100 and the run persists the
row — the malformed amount was silently replaced by nothing inside
`fee_uatom_from_lcd_tx`'s `except: pass`. -/
theorem no_silent_error_swallowing_cx :
    mainRun ⟨100, .val (some 99), oBadAmount, none⟩ =
      ([⟨"2024-01-02", 1, 0, 0, 0, 0, 0, 0⟩], .val (some 100)) ∧
    heightOk oBadAmount 100 = true ∧ pyInt? "12abc" = none := by
  refine ⟨?_, ?_, ?_⟩
  · rw [mainRun_eq_mainRunD]; rfl
  · rfl
  · rfl

/-- C7 amended.  Errors are contained rather than propagated: a fee
entry whose amount does not parse is silently skipped (contributing 0)
and scanning continues, while a block- or detail-fetch failure stops the
scanning loop at that height (later heights are not visited, no further
save happens) without raising — the run then proceeds to merge and
persist whatever was accumulated. -/
theorem error_containment_amended :
    (∀ (ms : List String) (l1 l2 : List FeeEntry) (e : FeeEntry),
        pyInt? e.amount = none →
        fee_uatom_from_lcd_tx ⟨l1 ++ e :: l2, ms⟩ = fee_uatom_from_lcd_tx ⟨l1 ++ l2, ms⟩) ∧
    (∀ (o : Oracles) (h : Int) (more : List Int) (bd : ByDate) (saves : List Int),
        heightOk o h = false →
        scanLoop o (h :: more) bd saves = ((scanStep o bd h).1, saves)) := by
  constructor
  · intro ms l1 l2 e he
    simp only [fee_uatom_from_lcd_tx, List.foldl_append, List.foldl_cons]
    congr 1
    by_cases hd : e.denom = "uatom"
    · simp [hd, he]
    · simp [hd]
  · intro o h more bd saves hok
    simp only [scanLoop, scanStep_snd, hok]
    simp

/-- Witness for the amended C7 theorem: a malformed amount among
parseable ones changes nothing, and the concrete failing block stops the
loop with the partial bucket kept. -/
theorem error_containment_amended_witness :
    fee_uatom_from_lcd_tx ⟨[⟨"uatom", "3"⟩, ⟨"uatom", "12abc"⟩], []⟩ =
      fee_uatom_from_lcd_tx ⟨[⟨"uatom", "3"⟩], []⟩ ∧
    scanLoop oPartial [100, 101] [] [] = ((scanStep oPartial [] 100).1, []) :=
  ⟨error_containment_amended.1 [] [⟨"uatom", "3"⟩] [] ⟨"uatom", "12abc"⟩ (by rfl),
   error_containment_amended.2 oPartial 100 [101] [] [] (by rfl)⟩

/-! ### Retry and endpoint-fallback lemmas -/

theorem retry_fst {α : Type} (f : Nat → Except String α) (l : List Nat) (e0 : String) :
    (retryGo f l e0).1 =
      match l.find? (fun i => exOk (f i)) with
      | some i => f i
      | none =>
        match l.getLast? with
        | some j => f j
        | none => .error e0 := by
  induction l generalizing e0 with
  | nil => rfl
  | cons i rest ih =>
    cases hfi : f i with
    | ok r =>
      rw [List.find?_cons_of_pos _ (by simp [hfi, exOk])]
      simp [retryGo, hfi]
    | error e =>
      rw [List.find?_cons_of_neg _ (by simp [hfi, exOk])]
      simp only [retryGo, hfi]
      rw [ih e]
      cases rest with
      | nil => simp [List.find?, hfi]
      | cons r rs =>
        cases hf : List.find? (fun i => exOk (f i)) (r :: rs) with
        | some j => simp [hf]
        | none =>
          simp only [hf]
          cases hgl : (r :: rs).getLast? with
          | none => simp [List.getLast?_eq_none_iff] at hgl
          | some j => simp [hgl]

theorem retry_snd {α : Type} (f : Nat → Except String α) (l : List Nat) (e0 : String) :
    (retryGo f l e0).2 =
      (l.takeWhile (fun i => !(exOk (f i)))).map (fun i => BACKOFF * (i : ℚ)) := by
  induction l generalizing e0 with
  | nil => rfl
  | cons i rest ih =>
    cases hfi : f i with
    | ok r => simp [retryGo, hfi, List.takeWhile_cons, exOk]
    | error e => simp [retryGo, hfi, List.takeWhile_cons, exOk, ih e]

theorem httpGo_spec {α : Type} (net : String → Nat → Except String α) (path : String)
    (bases : List String) (errs : List (String × String)) :
    httpGetAnyGo net path bases errs =
      match bases.find?
          (fun b => exOk (request_with_retries (net (rstripSlash b ++ path))).1) with
      | some b => ((request_with_retries (net (rstripSlash b ++ path))).1).map (fun r => (r, b))
      | none =>
        .error (aggErrMsg (errs ++ bases.map (fun b =>
          (b, errStr (request_with_retries (net (rstripSlash b ++ path))).1)))) := by
  induction bases generalizing errs with
  | nil => simp [httpGetAnyGo, List.find?]
  | cons b rest ih =>
    cases hb : (request_with_retries (net (rstripSlash b ++ path))).1 with
    | ok r =>
      rw [List.find?_cons_of_pos _ (by simp [hb, exOk])]
      simp [httpGetAnyGo, hb, Except.map]
    | error e =>
      rw [List.find?_cons_of_neg _ (by simp [hb, exOk])]
      simp only [httpGetAnyGo, hb]
      rw [ih (errs ++ [(b, e)])]
      cases hf : List.find?
          (fun b => exOk (request_with_retries (net (rstripSlash b ++ path))).1) rest with
      | some b' => simp [hf]
      | none => simp [hf, errStr, hb, List.append_assoc]

/-- C5.  Multi-endpoint fetch policy.  First conjunct: the sleep-delay
trace of one endpoint's retry loop is `BACKOFF * i` for exactly the
failed attempts `i = 1, 2, ...` — linear backoff with a fixed budget of
`MAX_RETRIES` attempts.  Second conjunct: the retry loop returns the
first successful attempt's response, and when every attempt failed it
raises the last attempt's error.  Third conjunct: endpoints are tried
strictly in list order; the call returns the first endpoint (with its
response) whose retry budget yields a success, and it raises if and only
if every endpoint is exhausted, with the aggregated message naming every
endpoint and its last failure. -/
theorem multi_endpoint_fetch {α : Type} :
    (∀ f : Nat → Except String α,
        (request_with_retries f).2 =
          ((List.range' 1 MAX_RETRIES).takeWhile (fun i => !(exOk (f i)))).map
            (fun i => BACKOFF * (i : ℚ))) ∧
    (∀ f : Nat → Except String α,
        (request_with_retries f).1 =
          match (List.range' 1 MAX_RETRIES).find? (fun i => exOk (f i)) with
          | some i => f i
          | none => f MAX_RETRIES) ∧
    (∀ (bases : List String) (net : String → Nat → Except String α) (path : String),
        http_get_any bases net path =
          match bases.find?
              (fun b => exOk (request_with_retries (net (rstripSlash b ++ path))).1) with
          | some b =>
            ((request_with_retries (net (rstripSlash b ++ path))).1).map (fun r => (r, b))
          | none =>
            .error (aggErrMsg (bases.map (fun b =>
              (b, errStr (request_with_retries (net (rstripSlash b ++ path))).1))))) := by
  refine ⟨fun f => retry_snd f _ "", fun f => ?_, fun bases net path => ?_⟩
  · rw [request_with_retries, retry_fst f (List.range' 1 MAX_RETRIES) ""]
    cases hf : (List.range' 1 MAX_RETRIES).find? (fun i => exOk (f i))
    · simp only [hf]; rfl
    · simp [hf]
  · rw [http_get_any, httpGo_spec]
    simp

/-- C9.  Scan range policy: a readable watermark W resumes the scan at
W+1; a missing or unreadable state file yields no watermark and the
fallback start `max(1, latest - BLOCK_BATCH)`; in every case the end
bound is `min(latest, start + BLOCK_BATCH)`. -/
theorem scan_range_policy :
    (∀ W latest : Int, computeStart (.val (some W)) latest = W + 1) ∧
    (load_state .missing = none ∧ load_state .corrupt = none) ∧
    (∀ latest : Int, computeStart .missing latest = max 1 (latest - BLOCK_BATCH)) ∧
    (∀ latest : Int, computeStart .corrupt latest = max 1 (latest - BLOCK_BATCH)) ∧
    (∀ latest s : Int, computeEnd latest s = min latest (s + BLOCK_BATCH)) :=
  ⟨fun _ _ => rfl, ⟨rfl, rfl⟩, fun _ => rfl, fun _ => rfl, fun _ _ => rfl⟩

/-! ### Fee extraction lemmas -/

theorem feeFold_spec (l : List FeeEntry) (a : Int) :
    l.foldl
        (fun acc x =>
          if x.denom = "uatom" then
            match pyInt? x.amount with
            | some v => acc + v
            | none => acc
          else acc)
        a =
      a + ((l.filter (fun e => e.denom == "uatom")).filterMap (fun e => pyInt? e.amount)).sum := by
  induction l generalizing a with
  | nil => simp
  | cons e t ih =>
    simp only [List.foldl_cons, List.filter_cons]
    by_cases hd : e.denom = "uatom"
    · simp only [hd, if_pos rfl, beq_self_eq_true, if_true]
      cases hp : pyInt? e.amount with
      | some v => simp [ih, hp, add_assoc]
      | none => simp [ih, hp]
    · have hb : (e.denom == "uatom") = false := by simpa using hd
      simp [hd, hb, ih]

/-- C10.  Implicit denomination filter in `fee_uatom_from_lcd_tx`.
First conjunct: a transaction's fee is exactly the sum of the parseable
amounts of its `uatom`-denominated fee entries.  Second conjunct: an
entry in any other denomination, or with an unparseable amount string,
contributes exactly 0 (removing it changes nothing).  Third conjunct: a
transaction paying its fee entirely in other denominations has fee 0. -/
theorem fee_denomination_filter :
    (∀ (l : List FeeEntry) (ms : List String),
        fee_uatom_from_lcd_tx ⟨l, ms⟩ =
          ((l.filter (fun e => e.denom == "uatom")).filterMap (fun e => pyInt? e.amount)).sum) ∧
    (∀ (ms : List String) (l1 l2 : List FeeEntry) (e : FeeEntry),
        e.denom ≠ "uatom" ∨ pyInt? e.amount = none →
        fee_uatom_from_lcd_tx ⟨l1 ++ e :: l2, ms⟩ = fee_uatom_from_lcd_tx ⟨l1 ++ l2, ms⟩) ∧
    (∀ (l : List FeeEntry) (ms : List String),
        (∀ e ∈ l, e.denom ≠ "uatom") → fee_uatom_from_lcd_tx ⟨l, ms⟩ = 0) := by
  refine ⟨fun l ms => ?_, fun ms l1 l2 e he => ?_, fun l ms hl => ?_⟩
  · rw [fee_uatom_from_lcd_tx, feeFold_spec]
    simp
  · rw [fee_uatom_from_lcd_tx, fee_uatom_from_lcd_tx, feeFold_spec, feeFold_spec]
    simp only [List.filter_append, List.filter_cons]
    rcases he with he | he
    · have hb : (e.denom == "uatom") = false := by simpa using he
      simp [hb]
    · by_cases hd : (e.denom == "uatom") = true
      · simp [hd, List.filterMap_append, he]
      · simp [Bool.not_eq_true] at hd
        simp [hd]
  · rw [fee_uatom_from_lcd_tx, feeFold_spec]
    have : l.filter (fun e => e.denom == "uatom") = [] := by
      rw [List.filter_eq_nil_iff]
      intro e hel
      simpa using hl e hel
    simp [this]

/-- Witness for C10: a non-`uatom` entry contributes nothing, and an
all-foreign-denomination fee list yields fee 0. -/
theorem fee_denomination_filter_witness :
    fee_uatom_from_lcd_tx ⟨[⟨"uatom", "7"⟩, ⟨"uosmo", "9"⟩], []⟩ =
      fee_uatom_from_lcd_tx ⟨[⟨"uatom", "7"⟩], []⟩ ∧
    fee_uatom_from_lcd_tx ⟨[⟨"uosmo", "9"⟩, ⟨"uion", "4"⟩], []⟩ = 0 :=
  ⟨fee_denomination_filter.2.1 [] [⟨"uatom", "7"⟩] [] ⟨"uosmo", "9"⟩ (Or.inl (by decide)),
   fee_denomination_filter.2.2 [⟨"uosmo", "9"⟩, ⟨"uion", "4"⟩] [] (by decide)⟩

/-! ### Derived-ratio lemmas -/

theorem ratioOkB_mkRow (d : String) (v : Bucket) : ratioOkB (mkRow d v) = true := by
  simp [ratioOkB, mkRow]

theorem sumAt_eq_sumAtP (T : List Row) (d : String) :
    sumAt T d = sumAtP (T.map stripR) d := by
  induction T with
  | nil => rfl
  | cons r t ih =>
    simp only [sumAt, sumAtP, List.map_cons] at *
    by_cases hrd : r.date = d
    · rw [List.filter_cons_of_pos (by simpa using hrd),
        List.filter_cons_of_pos (by simpa [stripR] using hrd)]
      simp only [addOf, stripR, List.map_cons, List.sum_cons, Bucket.mk.injEq] at *
      obtain ⟨g1, g2, g3, g4, g5⟩ := ih
      exact ⟨by rw [g1], by rw [g2], by rw [g3], by rw [g4], by rw [g5]⟩
    · rw [List.filter_cons_of_neg (by simpa using hrd),
        List.filter_cons_of_neg (by simpa [stripR] using hrd)]
      exact ih

theorem sumAt_congr (T T' : List Row) (h : T.map stripR = T'.map stripR) (d : String) :
    sumAt T d = sumAt T' d := by
  rw [sumAt_eq_sumAtP, sumAt_eq_sumAtP, h]

theorem datesOf_congr (T T' : List Row) (h : T.map stripR = T'.map stripR) :
    datesOf T = datesOf T' := by
  have : (T.map stripR).map Prod.fst = (T'.map stripR).map Prod.fst := by rw [h]
  simpa [datesOf, stripR, Function.comp] using this

theorem mergeTables_congr (T T' N : List Row) (h : T.map stripR = T'.map stripR) :
    mergeTables T N = mergeTables T' N := by
  have hmap : (T ++ N).map stripR = (T' ++ N).map stripR := by
    simp only [List.map_append, h]
  have hdates : datesOf (T ++ N) = datesOf (T' ++ N) := datesOf_congr _ _ hmap
  simp only [mergeTables, hdates]
  exact List.map_congr_left fun d _ => by rw [sumAt_congr _ _ hmap d]

/-- C6.  Derived-field consistency.  First conjunct: after every run,
every row of the produced daily table satisfies both ratio equations
(cross-chain share of count is count-ratio times 100, 0 when the total
count is 0, and likewise for the fee share), computed from that row's
own summed totals.  Second conjunct: the produced table depends only on
the previous table's dates and additive fields, never on its stored
ratio columns — the ratios are recomputed, not merged. -/
theorem derived_field_consistency :
    (∀ inp : RunInput, ((mainRun inp).1).all ratioOkB = true) ∧
    (∀ (latest : Int) (sf : StateFile) (o : Oracles) (T T' : List Row),
        T.map stripR = T'.map stripR →
        (mainRun ⟨latest, sf, o, some T⟩).1 = (mainRun ⟨latest, sf, o, some T'⟩).1) := by
  constructor
  · intro inp
    rw [List.all_eq_true]
    intro r hr
    simp only [mainRun, sortRows, List.mem_insertionSort] at hr
    cases hOld : inp.oldTable with
    | some old =>
      rw [hOld] at hr
      simp only [mergeTables, List.mem_map] at hr
      obtain ⟨d, _, rfl⟩ := hr
      exact ratioOkB_mkRow _ _
    | none =>
      rw [hOld] at hr
      simp only [rowsOf, List.mem_map] at hr
      obtain ⟨p, _, rfl⟩ := hr
      exact ratioOkB_mkRow _ _
  · intro latest sf o T T' h
    simp only [mainRun]
    rw [mergeTables_congr T T' _ h]

/-- Witness for C6 at a no-new-blocks run: the produced table is
ratio-consistent, and two stored tables that differ only in their stored
ratio columns produce identical output tables. -/
theorem derived_field_consistency_witness :
    ((mainRun ⟨99, .val (some 99), oDown,
        some [⟨"2024-01-02", 2, 1, 50, 10, 5, 50, 0⟩]⟩).1).all ratioOkB = true ∧
    (mainRun ⟨99, .val (some 99), oDown,
        some [⟨"2024-01-02", 2, 1, 50, 10, 5, 50, 0⟩]⟩).1 =
      (mainRun ⟨99, .val (some 99), oDown,
        some [⟨"2024-01-02", 2, 1, 99, 10, 5, 1, 0⟩]⟩).1 :=
  ⟨derived_field_consistency.1 _,
   derived_field_consistency.2 99 (.val (some 99)) oDown
     [⟨"2024-01-02", 2, 1, 50, 10, 5, 50, 0⟩]
     [⟨"2024-01-02", 2, 1, 99, 10, 5, 1, 0⟩] (by decide)⟩

/-! ### Lemmas about re-merging an already-normal table -/

theorem intRange_nil (a b : Int) (h : b < a) : intRange a b = [] := by
  simp [intRange, Int.toNat_eq_zero.mpr (by omega : b + 1 - a ≤ 0)]

theorem sumAt_cons_of_ne (r : Row) (t : List Row) (d : String) (h : r.date ≠ d) :
    sumAt (r :: t) d = sumAt t d := by
  simp only [sumAt]
  rw [List.filter_cons_of_neg (by simpa using h)]

theorem sumAt_cons_self (r : Row) (t : List Row) (h : r.date ∉ datesOf t) :
    sumAt (r :: t) r.date = addOf r := by
  simp only [sumAt]
  rw [List.filter_cons_of_pos (by simp)]
  have hnil : t.filter (fun x => x.date == r.date) = [] := by
    rw [List.filter_eq_nil_iff]
    intro x hx
    simp only [beq_iff_eq]
    intro hxe
    exact h (by simpa [datesOf, ← hxe] using List.mem_map_of_mem Row.date hx)
  simp [hnil, addOf]

theorem mkRow_addOf (r : Row) (h : ratioOkB r = true) : mkRow r.date (addOf r) = r := by
  cases r
  simp only [ratioOkB, Bool.and_eq_true, decide_eq_true_eq] at h
  simp [mkRow, addOf, h.1.symm, h.2.symm]

theorem table_rebuild (T : List Row) (hNodup : (datesOf T).Nodup)
    (hRatio : T.all ratioOkB = true) :
    (datesOf T).map (fun d => mkRow d (sumAt T d)) = T := by
  induction T with
  | nil => rfl
  | cons r t ih =>
    simp only [datesOf, List.map_cons] at hNodup ⊢
    simp only [List.nodup_cons] at hNodup
    simp only [List.all_cons, Bool.and_eq_true] at hRatio
    have hhead : sumAt (r :: t) r.date = addOf r :=
      sumAt_cons_self r t (by simpa [datesOf] using hNodup.1)
    rw [hhead, mkRow_addOf r hRatio.1]
    have htail : (t.map Row.date).map (fun d => mkRow d (sumAt (r :: t) d)) =
        (t.map Row.date).map (fun d => mkRow d (sumAt t d)) := by
      refine List.map_congr_left fun d hd => ?_
      have hne : r.date ≠ d := fun he => hNodup.1 (he ▸ hd)
      rw [sumAt_cons_of_ne r t d hne]
    rw [htail]
    have := ih (by simpa [datesOf] using hNodup.2) hRatio.2
    simpa [datesOf] using this

theorem mergeTables_nil_right (T : List Row) (hSorted : List.Sorted (· ≤ ·) (datesOf T))
    (hNodup : (datesOf T).Nodup) (hRatio : T.all ratioOkB = true) :
    mergeTables T [] = T := by
  simp only [mergeTables, List.append_nil, dedupSort]
  rw [List.dedup_eq_self.mpr hNodup, List.Sorted.insertionSort_eq hSorted]
  exact table_rebuild T hNodup hRatio

theorem sorted_rows_of_dates (T : List Row) (hSorted : List.Sorted (· ≤ ·) (datesOf T)) :
    List.Sorted rowLe T := by
  simp only [datesOf, List.Sorted, List.pairwise_map] at hSorted
  exact hSorted

/-- C4.  Idempotent resume: when the resume start height exceeds the
chain's latest height (so the scanned range is empty), a run leaves both
the persisted daily table and the watermark file unchanged.  The
hypotheses say that the old table is a well-formed persisted table — one
row per date in chronological order with consistent derived ratios —
which holds of every table this program writes. -/
theorem idempotent_resume (inp : RunInput) (T : List Row)
    (hOld : inp.oldTable = some T)
    (hSorted : List.Sorted (· ≤ ·) (datesOf T))
    (hNodup : (datesOf T).Nodup)
    (hRatio : T.all ratioOkB = true)
    (hStart : inp.latest < computeStart inp.stateFile inp.latest) :
    mainRun inp = (T, inp.stateFile) := by
  have hrange : intRange (computeStart inp.stateFile inp.latest)
      (computeEnd inp.latest (computeStart inp.stateFile inp.latest)) = [] := by
    refine intRange_nil _ _ ?_
    have : computeEnd inp.latest (computeStart inp.stateFile inp.latest) ≤ inp.latest :=
      min_le_left _ _
    omega
  simp only [mainRun, hrange, hOld, scanLoop, rowsOf, List.insertionSort, List.map_nil,
    List.getLast?]
  rw [mergeTables_nil_right T hSorted hNodup hRatio]
  rw [sortRows, List.Sorted.insertionSort_eq (sorted_rows_of_dates T hSorted)]

/-- Witness for C4: a concrete one-row table and a watermark already at
the chain head; the run changes nothing. -/
theorem idempotent_resume_witness :
    mainRun ⟨99, .val (some 99), oDown,
        some (rowsOf [("2024-01-02", ⟨2, 1, 10, 5, 0⟩)])⟩ =
      (rowsOf [("2024-01-02", ⟨2, 1, 10, 5, 0⟩)], .val (some 99)) :=
  idempotent_resume _ _ rfl
    (by simp [rowsOf, datesOf, List.insertionSort, mkRow])
    (by simp [rowsOf, datesOf, List.insertionSort, mkRow])
    (by simp [rowsOf, List.insertionSort, ratioOkB_mkRow])
    (by decide)

/-! ### Accumulator lemmas for successful height ranges -/

theorem contribFold_shift (o : Oracles) (d : String) (hs : List Int) (t : Bucket) :
    hs.foldl (contribStep o d) t = bAdd t (contribSum o hs d) := by
  induction hs generalizing t with
  | nil => simp [contribSum, bAdd_zero]
  | cons h rest ih =>
    simp only [contribSum, List.foldl_cons] at *
    rw [ih (contribStep o d t h), ih (contribStep o d zeroBucket h)]
    cases hfb : fetchBlock o h with
    | error e => simp [contribStep, hfb, zero_bAdd]
    | ok pr =>
      by_cases hd : pr.1 = d <;> simp [contribStep, hfb, hd, zero_bAdd, bAdd_assoc]

theorem contribSum_cons (o : Oracles) (d : String) (h : Int) (t : List Int) :
    contribSum o (h :: t) d = bAdd (contribStep o d zeroBucket h) (contribSum o t d) := by
  simp only [contribSum, List.foldl_cons]
  rw [contribFold_shift]
  rfl

theorem contribSum_append (o : Oracles) (d : String) (l1 l2 : List Int) :
    contribSum o (l1 ++ l2) d = bAdd (contribSum o l1 d) (contribSum o l2 d) := by
  simp only [contribSum, List.foldl_append]
  rw [contribFold_shift]
  rfl

theorem bdGet_bdSet (bd : ByDate) (d d' : String) (b : Bucket) :
    bdGet (bdSet bd d b) d' = if d = d' then b else bdGet bd d' := by
  induction bd with
  | nil => simp [bdSet, bdGet]
  | cons p t ih =>
    obtain ⟨pd, pb⟩ := p
    by_cases h1 : pd = d
    · subst h1
      by_cases h2 : pd = d' <;> simp [bdSet, bdGet, h2]
    · simp only [bdSet, if_neg h1]
      by_cases h2 : d = d'
      · subst h2
        simp [bdGet, ih, h1]
      · simp [bdGet, ih, h2]

theorem bdKeys_bdSet_mem (bd : ByDate) (d : String) (b : Bucket) (x : String) :
    x ∈ bdKeys (bdSet bd d b) ↔ x ∈ bdKeys bd ∨ x = d := by
  induction bd with
  | nil => simp [bdSet, bdKeys]
  | cons p t ih =>
    obtain ⟨pd, pb⟩ := p
    by_cases h1 : pd = d
    · subst h1
      simp [bdSet, bdKeys]
      tauto
    · simp only [bdSet, if_neg h1, bdKeys, List.map_cons, List.mem_cons] at *
      rw [ih]
      tauto

theorem bdKeys_bdSet_nodup (bd : ByDate) (d : String) (b : Bucket)
    (h : (bdKeys bd).Nodup) : (bdKeys (bdSet bd d b)).Nodup := by
  induction bd with
  | nil => simp [bdSet, bdKeys]
  | cons p t ih =>
    obtain ⟨pd, pb⟩ := p
    simp only [bdKeys, List.map_cons, List.nodup_cons] at h
    by_cases h1 : pd = d
    · subst h1
      simp only [bdSet, if_pos rfl]
      simpa [bdKeys, List.nodup_cons] using h
    · simp only [bdSet, if_neg h1, bdKeys, List.map_cons, List.nodup_cons]
      refine ⟨?_, ih h.2⟩
      intro hmem
      rcases (bdKeys_bdSet_mem t d b pd).mp hmem with hm | hm
      · exact h.1 hm
      · exact h1 hm

theorem stepBd_ok (o : Oracles) (bd : ByDate) (h : Int) (pr : String × List String)
    (hfb : fetchBlock o h = .ok pr) (hok : heightOk o h = true) :
    stepBd o bd h = bdSet bd pr.1 (bAdd (bdGet bd pr.1) (heightDelta o pr.2)) := by
  have hall : ∀ k ∈ pr.2.map o.hashFn, exOk (o.lcd k) = true := by
    simp only [heightOk, hfb, List.all_eq_true] at hok
    exact hok
  simp only [stepBd, scanStep, hfb]
  rw [processTxs_ok o _ _ hall]
  have hb1 : ∀ b0 : Bucket,
      ({ b0 with tx_total := b0.tx_total + (pr.2.map o.hashFn).length } : Bucket) =
        bAdd b0 ⟨(pr.2.map o.hashFn).length, 0, 0, 0, 0⟩ := by
    intro b0; cases b0; simp [bAdd]
  rw [hb1]
  simp [heightDelta, bAdd_assoc]

theorem foldOk_get (o : Oracles) (hs : List Int)
    (hok : ∀ h ∈ hs, heightOk o h = true) (bd : ByDate) (d : String) :
    bdGet (hs.foldl (stepBd o) bd) d = bAdd (bdGet bd d) (contribSum o hs d) := by
  induction hs generalizing bd with
  | nil => simp [contribSum, bAdd_zero]
  | cons h t ih =>
    have hokh := hok h (by simp)
    obtain ⟨pr, hfb⟩ : ∃ pr, fetchBlock o h = .ok pr := by
      cases hfb : fetchBlock o h with
      | error e => simp [heightOk, hfb] at hokh
      | ok pr => exact ⟨pr, rfl⟩
    simp only [List.foldl_cons]
    rw [ih (fun x hx => hok x (by simp [hx])), contribSum_cons,
      stepBd_ok o bd h pr hfb hokh, bdGet_bdSet]
    by_cases hd : pr.1 = d
    · rw [if_pos hd]
      simp [contribStep, hfb, hd, zero_bAdd, bAdd_assoc]
    · rw [if_neg hd]
      simp [contribStep, hfb, hd, zero_bAdd]

theorem foldOk_keys_mem (o : Oracles) (hs : List Int)
    (hok : ∀ h ∈ hs, heightOk o h = true) (bd : ByDate) (x : String) :
    x ∈ bdKeys (hs.foldl (stepBd o) bd) ↔
      x ∈ bdKeys bd ∨ ∃ h ∈ hs, okDate o h = some x := by
  induction hs generalizing bd with
  | nil => simp
  | cons h t ih =>
    have hokh := hok h (by simp)
    obtain ⟨pr, hfb⟩ : ∃ pr, fetchBlock o h = .ok pr := by
      cases hfb : fetchBlock o h with
      | error e => simp [heightOk, hfb] at hokh
      | ok pr => exact ⟨pr, rfl⟩
    simp only [List.foldl_cons]
    rw [ih (fun y hy => hok y (by simp [hy])), stepBd_ok o bd h pr hfb hokh,
      bdKeys_bdSet_mem]
    constructor
    · rintro ((hm | hm) | ⟨y, hy, he⟩)
      · exact Or.inl hm
      · exact Or.inr ⟨h, by simp, by rw [okDate, hfb, hm]; simp [Except.toOption]⟩
      · exact Or.inr ⟨y, by simp [hy], he⟩
    · rintro (hm | ⟨y, hy, he⟩)
      · exact Or.inl (Or.inl hm)
      · rcases List.mem_cons.mp hy with hy | hy
        · subst hy
          rw [okDate, hfb] at he
          have hx : pr.1 = x := by simpa [Except.toOption] using he
          exact Or.inl (Or.inr hx.symm)
        · exact Or.inr ⟨y, hy, he⟩

theorem foldOk_nodup (o : Oracles) (hs : List Int) (bd : ByDate)
    (h : (bdKeys bd).Nodup) : (bdKeys (hs.foldl (stepBd o) bd)).Nodup := by
  induction hs generalizing bd with
  | nil => exact h
  | cons x t ih =>
    simp only [List.foldl_cons]
    refine ih _ ?_
    simp only [stepBd, scanStep]
    cases hfb : fetchBlock o x with
    | error e => exact h
    | ok pr => exact bdKeys_bdSet_nodup bd pr.1 _ h

/-! ### Row-table lemmas: sums, sorting, grouping -/

theorem sumAt_perm (l l' : List Row) (h : l.Perm l') (d : String) :
    sumAt l d = sumAt l' d := by
  have hf := h.filter (fun r => r.date == d)
  simp only [sumAt]
  rw [(hf.map Row.tx_total).sum_eq, (hf.map Row.tx_ibc).sum_eq,
    (hf.map Row.total_fee_uatom).sum_eq, (hf.map Row.ibc_fee_uatom).sum_eq,
    (hf.map Row.lcd_errors).sum_eq]

theorem sumAt_append (A B : List Row) (d : String) :
    sumAt (A ++ B) d = bAdd (sumAt A d) (sumAt B d) := by
  simp [sumAt, List.filter_append, bAdd]

theorem sumAt_sortRows (X : List Row) (d : String) : sumAt (sortRows X) d = sumAt X d :=
  sumAt_perm _ _ (List.perm_insertionSort rowLe X) d

theorem rowsOf_perm (bd : ByDate) : (rowsOf bd).Perm (bd.map (fun p => mkRow p.1 p.2)) :=
  (List.perm_insertionSort keyLe bd).map _

theorem addOf_mkRow (d : String) (v : Bucket) : addOf (mkRow d v) = v := by
  cases v; rfl

theorem datesOf_map_mkRow (bd : ByDate) :
    datesOf (bd.map (fun p => mkRow p.1 p.2)) = bdKeys bd := by
  rw [datesOf, List.map_map]
  rfl

theorem sumAt_zero_of_not_mem (T : List Row) (d : String) (h : d ∉ datesOf T) :
    sumAt T d = zeroBucket := by
  have hnil : T.filter (fun r => r.date == d) = [] := by
    rw [List.filter_eq_nil_iff]
    intro r hr
    simp only [beq_iff_eq]
    intro he
    exact h (by simpa [datesOf, ← he] using List.mem_map_of_mem Row.date hr)
  simp [sumAt, hnil, zeroBucket]

theorem sumAt_mapRows (bd : ByDate) (d : String) :
    (bdKeys bd).Nodup → sumAt (bd.map (fun p => mkRow p.1 p.2)) d = bdGet bd d := by
  induction bd with
  | nil => intro _; rfl
  | cons p t ih =>
    intro hnd
    obtain ⟨pd, pb⟩ := p
    simp only [bdKeys, List.map_cons, List.nodup_cons] at hnd
    simp only [List.map_cons]
    by_cases hd : pd = d
    · subst hd
      have hnotin : (mkRow pd pb).date ∉ datesOf (t.map (fun p => mkRow p.1 p.2)) := by
        rw [datesOf_map_mkRow]
        exact hnd.1
      have hself := sumAt_cons_self (mkRow pd pb) _ hnotin
      rw [show (mkRow pd pb).date = pd from rfl] at hself
      rw [hself, addOf_mkRow]
      simp [bdGet]
    · rw [sumAt_cons_of_ne _ _ _ (by simpa [mkRow] using hd)]
      rw [ih hnd.2]
      simp [bdGet, hd]

theorem sumAt_rowsOf (bd : ByDate) (hnd : (bdKeys bd).Nodup) (d : String) :
    sumAt (rowsOf bd) d = bdGet bd d := by
  rw [sumAt_perm _ _ (rowsOf_perm bd) d]
  exact sumAt_mapRows bd d hnd

theorem mem_dedupSort (l : List String) (x : String) : x ∈ dedupSort l ↔ x ∈ l := by
  simp [dedupSort, List.mem_dedup]

theorem dedupSort_nodup (l : List String) : (dedupSort l).Nodup :=
  (List.perm_insertionSort (· ≤ ·) l.dedup).nodup_iff.mpr l.nodup_dedup

theorem dedupSort_sorted (l : List String) : List.Sorted (· ≤ ·) (dedupSort l) :=
  List.sorted_insertionSort _ _

theorem dedupSort_ext (l1 l2 : List String) (h : ∀ x, x ∈ l1 ↔ x ∈ l2) :
    dedupSort l1 = dedupSort l2 :=
  List.eq_of_perm_of_sorted
    ((List.perm_ext_iff_of_nodup (dedupSort_nodup l1) (dedupSort_nodup l2)).mpr
      (fun a => by rw [mem_dedupSort, mem_dedupSort]; exact h a))
    (dedupSort_sorted l1) (dedupSort_sorted l2)

theorem datesOf_merge (A B : List Row) :
    datesOf (mergeTables A B) = dedupSort (datesOf (A ++ B)) := by
  rw [mergeTables, datesOf, List.map_map]
  exact List.map_id (dedupSort (datesOf (A ++ B)))

theorem sumAt_keyed (ks : List String) (g : String → Bucket) (d : String) :
    ks.Nodup → sumAt (ks.map (fun k => mkRow k (g k))) d =
      if d ∈ ks then g d else zeroBucket := by
  induction ks with
  | nil => intro _; simp [sumAt, zeroBucket]
  | cons k t ih =>
    intro hnd
    simp only [List.nodup_cons] at hnd
    simp only [List.map_cons]
    by_cases hk : k = d
    · subst hk
      have hnotin : (mkRow k (g k)).date ∉ datesOf (t.map (fun x => mkRow x (g x))) := by
        have hid : datesOf (t.map (fun x => mkRow x (g x))) = t := by
          rw [datesOf, List.map_map]
          exact List.map_id t
        rw [hid]
        exact hnd.1
      have hself := sumAt_cons_self (mkRow k (g k)) _ hnotin
      rw [show (mkRow k (g k)).date = k from rfl] at hself
      rw [hself, addOf_mkRow]
      simp
    · rw [sumAt_cons_of_ne _ _ _ (by simpa [mkRow] using hk)]
      rw [ih hnd.2]
      have hiff : d = k ∨ d ∈ t ↔ d ∈ t :=
        ⟨fun h => h.resolve_left (fun he => hk he.symm), Or.inr⟩
      simp [hiff]

theorem sumAt_merge (A B : List Row) (d : String) :
    sumAt (mergeTables A B) d = sumAt (A ++ B) d := by
  rw [mergeTables]
  rw [sumAt_keyed _ _ d (dedupSort_nodup _)]
  by_cases hmem : d ∈ dedupSort (datesOf (A ++ B))
  · rw [if_pos hmem]
  · rw [if_neg hmem]
    rw [sumAt_zero_of_not_mem (A ++ B) d (fun hc => hmem ((mem_dedupSort _ d).mpr hc))]

theorem keysOf_sortRows (X : List Row) : keysOf (sortRows X) = keysOf X := by
  refine dedupSort_ext _ _ fun x => ?_
  have hperm : (datesOf (sortRows X)).Perm (datesOf X) :=
    (List.perm_insertionSort rowLe X).map Row.date
  exact hperm.mem_iff

theorem keysOf_merge (A B : List Row) :
    keysOf (mergeTables A B) = dedupSort (datesOf A ++ datesOf B) := by
  rw [keysOf, datesOf_merge]
  refine dedupSort_ext _ _ fun x => ?_
  rw [mem_dedupSort]
  simp [datesOf]

/-! ### Height ranges and fully successful runs -/

theorem takeWhile_all {α : Type} (p : α → Bool) (l : List α)
    (h : ∀ x ∈ l, p x = true) : l.takeWhile p = l :=
  List.takeWhile_eq_self_iff.mpr h

theorem dropWhile_all {α : Type} (p : α → Bool) (l : List α)
    (h : ∀ x ∈ l, p x = true) : l.dropWhile p = [] :=
  List.dropWhile_eq_nil_iff.mpr h

theorem intRange_getLast? (a b : Int) (h : a ≤ b) :
    (intRange a b).getLast? = some b := by
  rw [intRange, List.getLast?_eq_getElem?]
  simp only [List.length_map, List.length_range]
  rw [List.getElem?_map, List.getElem?_range (by omega : (b + 1 - a).toNat - 1 < (b + 1 - a).toNat)]
  have hv : a + (((b + 1 - a).toNat - 1 : Nat) : Int) = b := by omega
  simp [hv]

theorem intRange_append (a b c : Int) (h1 : a ≤ b + 1) (h2 : b ≤ c) :
    intRange a b ++ intRange (b + 1) c = intRange a c := by
  have hm : (c + 1 - a).toNat = (b + 1 - a).toNat + (c - b).toNat := by omega
  have hn2 : (c + 1 - (b + 1)).toNat = (c - b).toNat := by omega
  rw [intRange, intRange, intRange, hm, hn2, List.range_add, List.map_append, List.map_map]
  congr 1
  refine List.map_congr_left fun i hi => ?_
  simp only [Function.comp_apply]
  omega

theorem datesOf_rowsOf_mem (bd : ByDate) (x : String) :
    x ∈ datesOf (rowsOf bd) ↔ x ∈ bdKeys bd := by
  have hperm := (rowsOf_perm bd).map Row.date
  refine hperm.mem_iff.trans ?_
  rw [show List.map Row.date (bd.map (fun p => mkRow p.1 p.2)) =
      datesOf (bd.map (fun p => mkRow p.1 p.2)) from rfl, datesOf_map_mkRow]

theorem mainRun_allOk_fst (L W0 : Int) (o : Oracles) (T : List Row)
    (hok : ∀ h ∈ intRange (W0 + 1) (computeEnd L (W0 + 1)), heightOk o h = true) :
    (mainRun ⟨L, .val (some W0), o, some T⟩).1 =
      sortRows (mergeTables T
        (rowsOf ((intRange (W0 + 1) (computeEnd L (W0 + 1))).foldl (stepBd o) []))) := by
  have htw := takeWhile_all (heightOk o) _ hok
  have hdw := dropWhile_all (heightOk o) _ hok
  simp only [mainRun, computeStart, load_state]
  rw [scanLoop_bd, htw, hdw]
  rfl

theorem mainRun_allOk (L W0 : Int) (o : Oracles) (T : List Row)
    (hne : W0 + 1 ≤ computeEnd L (W0 + 1))
    (hok : ∀ h ∈ intRange (W0 + 1) (computeEnd L (W0 + 1)), heightOk o h = true) :
    mainRun ⟨L, .val (some W0), o, some T⟩ =
      (sortRows (mergeTables T
          (rowsOf ((intRange (W0 + 1) (computeEnd L (W0 + 1))).foldl (stepBd o) []))),
       .val (some (computeEnd L (W0 + 1)))) := by
  have htw := takeWhile_all (heightOk o) _ hok
  have hdw := dropWhile_all (heightOk o) _ hok
  simp only [mainRun, computeStart, load_state]
  rw [scanLoop_bd, scanLoop_saves, htw, hdw]
  rw [List.nil_append, intRange_getLast? _ _ hne]
  rfl

theorem keys_assoc (T0 N1 N2 NC : List Row)
    (h1 : ∀ x, x ∈ datesOf NC ↔ x ∈ datesOf N1 ∨ x ∈ datesOf N2) :
    keysOf (sortRows (mergeTables (sortRows (mergeTables T0 N1)) N2)) =
      keysOf (mergeTables T0 NC) := by
  rw [keysOf_sortRows, keysOf_merge, keysOf_merge]
  refine dedupSort_ext _ _ fun x => ?_
  simp only [List.mem_append]
  have hm1 : x ∈ datesOf (sortRows (mergeTables T0 N1)) ↔
      x ∈ datesOf T0 ∨ x ∈ datesOf N1 := by
    have hperm := (List.perm_insertionSort rowLe (mergeTables T0 N1)).map Row.date
    refine hperm.mem_iff.trans ?_
    rw [show List.map Row.date (mergeTables T0 N1) = datesOf (mergeTables T0 N1) from rfl,
      datesOf_merge, mem_dedupSort]
    simp [datesOf]
  rw [hm1, h1 x]
  tauto

theorem sums_assoc (T0 N1 N2 NC : List Row) (d : String)
    (h : sumAt NC d = bAdd (sumAt N1 d) (sumAt N2 d)) :
    sumAt (sortRows (mergeTables (sortRows (mergeTables T0 N1)) N2)) d =
      sumAt (mergeTables T0 NC) d := by
  rw [sumAt_sortRows, sumAt_merge, sumAt_append, sumAt_sortRows, sumAt_merge, sumAt_append,
    sumAt_merge, sumAt_append, h, bAdd_assoc]

set_option maxHeartbeats 1000000 in
/-- C3.  No double count.  Run 1 starts from watermark `W0`; run 2
resumes from run 1's persisted watermark (the last height of run 1's
range) plus one.  Both runs succeed on every height they scan.  Then the
daily table persisted after run 2 agrees — on the set of dates, and on
every date's additive fields (transaction count, cross-chain count,
total fee, cross-chain fee, and the failure counter) — with what one
hypothetical single pass over the full combined height range, merged
into the same initial table, would have produced. -/
theorem no_double_count
    (L1 L2 W0 : Int) (o : Oracles) (T0 : List Row)
    (h12 : L1 ≤ L2)
    (hne1 : W0 + 1 ≤ computeEnd L1 (W0 + 1))
    (hok1 : ∀ h ∈ intRange (W0 + 1) (computeEnd L1 (W0 + 1)), heightOk o h = true)
    (hok2 : ∀ h ∈ intRange (computeEnd L1 (W0 + 1) + 1)
        (computeEnd L2 (computeEnd L1 (W0 + 1) + 1)), heightOk o h = true) :
    keysOf (mainRun ⟨L2, (mainRun ⟨L1, .val (some W0), o, some T0⟩).2, o,
        some (mainRun ⟨L1, .val (some W0), o, some T0⟩).1⟩).1 =
      keysOf (mergeTables T0 (rowsOf ((scanLoop o
        (intRange (W0 + 1) (computeEnd L2 (computeEnd L1 (W0 + 1) + 1))) [] []).1))) ∧
    ∀ d, sumAt (mainRun ⟨L2, (mainRun ⟨L1, .val (some W0), o, some T0⟩).2, o,
        some (mainRun ⟨L1, .val (some W0), o, some T0⟩).1⟩).1 d =
      sumAt (mergeTables T0 (rowsOf ((scanLoop o
        (intRange (W0 + 1) (computeEnd L2 (computeEnd L1 (W0 + 1) + 1))) [] []).1))) d := by
  have hrun1 := mainRun_allOk L1 W0 o T0 hne1 hok1
  -- names for the two ranges and accumulators
  have he1L : computeEnd L1 (W0 + 1) ≤ L1 := min_le_left _ _
  have he12 : computeEnd L1 (W0 + 1) ≤ computeEnd L2 (computeEnd L1 (W0 + 1) + 1) := by
    refine le_min (le_trans he1L h12) ?_
    have hB : BLOCK_BATCH = 60 := rfl
    omega
  have hsplit := intRange_append (W0 + 1) (computeEnd L1 (W0 + 1))
    (computeEnd L2 (computeEnd L1 (W0 + 1) + 1)) (by omega) he12
  have hokC : ∀ h ∈ intRange (W0 + 1) (computeEnd L2 (computeEnd L1 (W0 + 1) + 1)),
      heightOk o h = true := by
    intro h hm
    rw [← hsplit, List.mem_append] at hm
    rcases hm with hm | hm
    · exact hok1 h hm
    · exact hok2 h hm
  -- run 2 only needs its table (its scanned range may be empty)
  have hrun2 := mainRun_allOk_fst L2 (computeEnd L1 (W0 + 1)) o
    (sortRows (mergeTables T0
      (rowsOf ((intRange (W0 + 1) (computeEnd L1 (W0 + 1))).foldl (stepBd o) [])))) hok2
  rw [hrun1]
  dsimp only
  rw [hrun2]
  -- combined-pass accumulator
  have htwC := takeWhile_all (heightOk o) _ hokC
  have hdwC := dropWhile_all (heightOk o) _ hokC
  have hbdC : (scanLoop o
      (intRange (W0 + 1) (computeEnd L2 (computeEnd L1 (W0 + 1) + 1))) [] []).1 =
      (intRange (W0 + 1) (computeEnd L2 (computeEnd L1 (W0 + 1) + 1))).foldl (stepBd o) [] := by
    rw [scanLoop_bd, htwC, hdwC]
    rfl
  rw [hbdC, ← hsplit, List.foldl_append]
  -- abbreviations
  generalize hB1 : (intRange (W0 + 1) (computeEnd L1 (W0 + 1))).foldl (stepBd o) [] = bd1
  generalize hB2 : (intRange (computeEnd L1 (W0 + 1) + 1)
      (computeEnd L2 (computeEnd L1 (W0 + 1) + 1))).foldl (stepBd o) [] = bd2
  have hnd1 : (bdKeys bd1).Nodup := by rw [← hB1]; exact foldOk_nodup o _ [] (by simp [bdKeys])
  have hnd2 : (bdKeys bd2).Nodup := by rw [← hB2]; exact foldOk_nodup o _ [] (by simp [bdKeys])
  have hndC : (bdKeys ((intRange (computeEnd L1 (W0 + 1) + 1)
      (computeEnd L2 (computeEnd L1 (W0 + 1) + 1))).foldl (stepBd o) bd1)).Nodup :=
    foldOk_nodup o _ bd1 hnd1
  constructor
  · -- key sets
    refine keys_assoc T0 (rowsOf bd1) (rowsOf bd2) _ fun x => ?_
    rw [datesOf_rowsOf_mem, datesOf_rowsOf_mem, datesOf_rowsOf_mem,
      foldOk_keys_mem o _ hok2 bd1 x]
    have hk2 : x ∈ bdKeys bd2 ↔ ∃ h ∈ intRange (computeEnd L1 (W0 + 1) + 1)
        (computeEnd L2 (computeEnd L1 (W0 + 1) + 1)), okDate o h = some x := by
      rw [← hB2, foldOk_keys_mem o _ hok2 [] x]
      simp [bdKeys]
    rw [hk2]
  · -- per-date additive fields
    intro d
    refine sums_assoc T0 (rowsOf bd1) (rowsOf bd2) _ d ?_
    rw [sumAt_rowsOf _ hndC d, sumAt_rowsOf bd1 hnd1 d, sumAt_rowsOf bd2 hnd2 d,
      foldOk_get o _ hok2 bd1 d]
    rw [← hB2, foldOk_get o _ hok2 [] d]
    simp only [show bdGet [] d = zeroBucket from rfl, zero_bAdd]

/-- Witness for C3 at the four-block scenario: run 1 scans heights
100..101, run 2 resumes at 102 and scans 102..103; the result matches
the single combined pass, here checked on the shared calendar date. -/
theorem no_double_count_witness :
    (keysOf (mainRun ⟨103, (mainRun ⟨101, .val (some 99), oFour, some []⟩).2, oFour,
        some (mainRun ⟨101, .val (some 99), oFour, some []⟩).1⟩).1 =
      keysOf (mergeTables [] (rowsOf ((scanLoop oFour
        (intRange 100 (computeEnd 103 (computeEnd 101 100 + 1))) [] []).1)))) ∧
    sumAt (mainRun ⟨103, (mainRun ⟨101, .val (some 99), oFour, some []⟩).2, oFour,
        some (mainRun ⟨101, .val (some 99), oFour, some []⟩).1⟩).1 "2024-01-02" =
      sumAt (mergeTables [] (rowsOf ((scanLoop oFour
        (intRange 100 (computeEnd 103 (computeEnd 101 100 + 1))) [] []).1))) "2024-01-02" := by
  have h := no_double_count 101 103 99 oFour [] (by decide) (by decide)
    (by decide) (by decide)
  exact ⟨h.1, h.2 "2024-01-02"⟩

/-! ### Character and digit-rendering lemmas -/

theorem digitChar_isDigit (n : Nat) (h : n < 10) : (digitChar n).isDigit = true := by
  interval_cases n <;> decide

theorem digitVal_digitChar (n : Nat) (h : n < 10) : digitVal (digitChar n) = n := by
  interval_cases n <;> decide

theorem digitChar_ne_dot (n : Nat) : digitChar n ≠ '.' := by
  unfold digitChar
  split_ifs <;> decide

theorem digitChar_ne_Z (n : Nat) : digitChar n ≠ 'Z' := by
  unfold digitChar
  split_ifs <;> decide

theorem isDigit_ne_dot (c : Char) (h : c.isDigit = true) : c ≠ '.' := by
  intro he
  subst he
  simp [Char.isDigit] at h

theorem isDigit_ne_Z (c : Char) (h : c.isDigit = true) : c ≠ 'Z' := by
  intro he
  subst he
  simp [Char.isDigit] at h

theorem parse2_pad2 (n : Nat) (h : n ≤ 99) (r : List Char) :
    parse2 (pad2 n ++ r) = some (n, r) := by
  have h1 : n / 10 % 10 = n / 10 := by omega
  have h2 : n / 10 < 10 := by omega
  have h3 : n % 10 < 10 := by omega
  simp only [pad2, List.cons_append, List.nil_append, parse2,
    digitChar_isDigit _ (by omega : n / 10 % 10 < 10), digitChar_isDigit _ h3,
    Bool.and_self, if_true]
  rw [digitVal_digitChar _ (by omega : n / 10 % 10 < 10), digitVal_digitChar _ h3]
  simp only [Option.some.injEq, Prod.mk.injEq]
  exact ⟨by omega, trivial⟩

theorem parse4_pad4 (n : Nat) (h : n ≤ 9999) (r : List Char) :
    parse4 (pad4 n ++ r) = some (n, r) := by
  have d1 : n / 1000 % 10 < 10 := by omega
  have d2 : n / 100 % 10 < 10 := by omega
  have d3 : n / 10 % 10 < 10 := by omega
  have d4 : n % 10 < 10 := by omega
  simp only [pad4, List.cons_append, List.nil_append, parse4,
    digitChar_isDigit _ d1, digitChar_isDigit _ d2, digitChar_isDigit _ d3,
    digitChar_isDigit _ d4, Bool.and_self, if_true]
  simp only [digitsToNat, digitVal_digitChar _ d1, digitVal_digitChar _ d2,
    digitVal_digitChar _ d3, digitVal_digitChar _ d4, List.foldl_cons, List.foldl_nil,
    Option.some.injEq, Prod.mk.injEq]
  exact ⟨by omega, trivial⟩

theorem expectC_cons (ch : Char) (r : List Char) : expectC ch (ch :: r) = some r := by
  simp [expectC]

theorem takeWhile_append_all {p : Char → Bool} (l : List Char) (x : Char) (r : List Char)
    (hl : ∀ c ∈ l, p c = true) (hx : p x = false) :
    (l ++ x :: r).takeWhile p = l := by
  induction l with
  | nil => simp [List.takeWhile_cons, hx]
  | cons c t ih =>
    have hc := hl c (by simp)
    simp only [List.cons_append, List.takeWhile_cons, hc, if_true]
    rw [ih (fun y hy => hl y (by simp [hy]))]

/-! ### replaceZ lemmas -/

theorem replaceZ_id (l : List Char) (h : 'Z' ∉ l) : replaceZ l = l := by
  induction l with
  | nil => rfl
  | cons c t ih =>
    simp only [List.mem_cons] at h
    rw [replaceZ, if_neg (fun he => h (Or.inl he.symm)), ih (fun hm => h (Or.inr hm))]

theorem replaceZ_append (l1 l2 : List Char) :
    replaceZ (l1 ++ l2) = replaceZ l1 ++ replaceZ l2 := by
  induction l1 with
  | nil => rfl
  | cons c t ih =>
    by_cases hc : c = 'Z' <;> simp [replaceZ, hc, ih]

theorem noZ_replaceZ (l : List Char) : 'Z' ∉ replaceZ l := by
  induction l with
  | nil => simp [replaceZ]
  | cons c t ih =>
    by_cases hc : c = 'Z' <;> simp [replaceZ, hc, ih]
    exact fun he => hc he.symm

theorem normCore_replaceZ (cs0 : List Char) : normCore cs0 = normCore (replaceZ cs0) := by
  simp only [normCore, replaceZ_id _ (noZ_replaceZ cs0)]

/-! ### The regex-rewrite core on well-formed dotted timestamps -/

theorem tzPat_shape (l : List Char) (h : tzPat l = true) :
    ∃ s a b d e, l = [s, a, b, ':', d, e] ∧ (s = '+' ∨ s = '-') ∧
      a.isDigit = true ∧ b.isDigit = true ∧ d.isDigit = true ∧ e.isDigit = true := by
  match l with
  | [] => simp [tzPat] at h
  | [x1] => simp [tzPat] at h
  | [x1, x2] => simp [tzPat] at h
  | [x1, x2, x3] => simp [tzPat] at h
  | [x1, x2, x3, x4] => simp [tzPat] at h
  | [x1, x2, x3, x4, x5] => simp [tzPat] at h
  | x1 :: x2 :: x3 :: x4 :: x5 :: x6 :: x7 :: rest => simp [tzPat] at h
  | [s, a, b, c, d, e] =>
    simp only [tzPat, Bool.and_eq_true, Bool.or_eq_true, beq_iff_eq] at h
    obtain ⟨⟨⟨⟨⟨hs, ha⟩, hb⟩, hcol⟩, hd⟩, he⟩ := h
    subst hcol
    exact ⟨s, a, b, d, e, rfl, hs, ha, hb, hd, he⟩

theorem tzPat_noZ (l : List Char) (h : tzPat l = true) : 'Z' ∉ l := by
  obtain ⟨s, a, b, d, e, rfl, hs, ha, hb, hd, he⟩ := tzPat_shape l h
  simp only [List.mem_cons, List.not_mem_nil, or_false]
  push_neg
  refine ⟨?_, ?_, ?_, by decide, ?_, ?_⟩
  · rcases hs with rfl | rfl <;> decide
  · exact fun hz => isDigit_ne_Z a ha hz.symm
  · exact fun hz => isDigit_ne_Z b hb hz.symm
  · exact fun hz => isDigit_ne_Z d hd hz.symm
  · exact fun hz => isDigit_ne_Z e he hz.symm

theorem padTrunc6_length (frac : List Char) : (padTrunc6 frac).length = 6 := by
  simp [padTrunc6]

theorem padTrunc6_digits (frac : List Char) (h : ∀ c ∈ frac, c.isDigit = true) :
    ∀ c ∈ padTrunc6 frac, c.isDigit = true := by
  intro c hc
  have := List.mem_of_mem_take hc
  rcases List.mem_append.mp this with hm | hm
  · exact h c hm
  · simp only [List.mem_cons, List.not_mem_nil, or_false] at hm
    rcases hm with rfl | rfl | rfl | rfl | rfl | rfl <;> decide

theorem normCore_dotted (base frac tz : List Char)
    (hbd : '.' ∉ base) (hbz : 'Z' ∉ base)
    (hf : frac ≠ []) (hfd : ∀ c ∈ frac, c.isDigit = true)
    (htz : tzPat tz = true) :
    normCore (base ++ '.' :: (frac ++ tz)) = base ++ '.' :: (padTrunc6 frac ++ tz) := by
  have hfz : 'Z' ∉ frac := fun hm => isDigit_ne_Z 'Z' (hfd 'Z' hm) rfl
  have htz6 : tz.length = 6 := by
    obtain ⟨s, a, b, d, e, rfl, _⟩ := tzPat_shape tz htz
    rfl
  have hnoZ : 'Z' ∉ base ++ '.' :: (frac ++ tz) := by
    simp only [List.mem_append, List.mem_cons]
    push_neg
    exact ⟨hbz, by decide, hfz, tzPat_noZ tz htz⟩
  have hlen : (base ++ '.' :: (frac ++ tz)).length =
      base.length + 1 + frac.length + 6 := by
    simp [htz6]
    omega
  rw [normCore, replaceZ_id _ hnoZ]
  dsimp only
  rw [if_neg (by omega)]
  have hsplit : base ++ '.' :: (frac ++ tz) = (base ++ '.' :: frac) ++ tz := by
    simp
  have hlenA : (base ++ '.' :: frac).length =
      ((base ++ '.' :: frac) ++ tz).length - 6 := by
    simp only [List.length_append, List.length_cons, htz6]
    omega
  rw [hsplit, ← hlenA, List.take_left, List.drop_left, if_pos htz]
  have hArev : (base ++ '.' :: frac).reverse = frac.reverse ++ '.' :: base.reverse := by
    simp
  have hfrac : fracOfA (base ++ '.' :: frac) = some frac := by
    rw [fracOfA, hArev]
    have htk : (frac.reverse ++ '.' :: base.reverse).takeWhile Char.isDigit = frac.reverse :=
      takeWhile_append_all _ _ _ (fun c hc => hfd c (List.mem_reverse.mp hc)) (by decide)
    rw [htk]
    rw [show frac.reverse.length = frac.length from by simp]
    rw [show (frac.reverse ++ '.' :: base.reverse).drop frac.length = '.' :: base.reverse from by
      rw [show frac.length = frac.reverse.length from by simp, List.drop_left]]
    rw [if_neg (by simpa using hf)]
    simp
  rw [hfrac]
  have hbnf : ((base ++ '.' :: frac) ++ tz).takeWhile (· != '.') = base := by
    rw [show (base ++ '.' :: frac) ++ tz = base ++ '.' :: (frac ++ tz) from by simp]
    refine takeWhile_append_all _ _ _ (fun c hc => ?_) (by decide)
    have hne : c ≠ '.' := fun he => hbd (he ▸ hc)
    simpa using hne
  rw [hbnf]

theorem parseFrac_wf (f6 : List Char) (sgn : Char) (oh om : Nat)
    (hf6 : f6.length = 6) (hfd : ∀ c ∈ f6, c.isDigit = true)
    (hsd : Char.isDigit sgn = false) :
    parseFrac ('.' :: (f6 ++ sgn :: (pad2 oh ++ ':' :: pad2 om))) =
      some (sgn :: (pad2 oh ++ ':' :: pad2 om)) := by
  have htk := takeWhile_append_all f6 sgn (pad2 oh ++ ':' :: pad2 om) hfd hsd
  simp only [parseFrac, htk]
  rw [List.drop_left, hf6]
  simp

theorem parseOffset_wf (sgn : Char) (oh om : Nat) (hoh : oh ≤ 99) (hom : om ≤ 99)
    (htot : 60 * (oh : Int) + (om : Int) < 1440)
    (hsok : (sgn == '+' || sgn == '-') = true) :
    parseOffset (sgn :: (pad2 oh ++ ':' :: pad2 om)) =
      some (if sgn == '+' then 60 * (oh : Int) + om else -(60 * (oh : Int) + om)) := by
  have h2 : parse2 (pad2 om) = some (om, []) := by
    have h := parse2_pad2 om hom []
    simpa using h
  simp only [parseOffset, hsok, if_true, parse2_pad2 oh hoh, Option.some_bind,
    expectC_cons, h2]
  rw [if_pos htot]

theorem parseIso_fmt (y mo d hh mi ss : Nat) (f6 : List Char) (sgn : Char) (oh om : Nat)
    (hy : y ≤ 9999) (hmo : mo ≤ 99) (hd : d ≤ 99) (hhh : hh ≤ 99) (hmi : mi ≤ 99)
    (hss : ss ≤ 99) (hf6 : f6.length = 6) (hfd : ∀ c ∈ f6, c.isDigit = true)
    (hsgn : sgn = '+' ∨ sgn = '-') (hoh : oh ≤ 99) (hom : om ≤ 99)
    (htot : 60 * (oh : Int) + (om : Int) < 1440)
    (hvalid : dtValid ⟨y, mo, d, hh, mi, ss,
      if sgn == '+' then 60 * (oh : Int) + om else -(60 * (oh : Int) + om)⟩ = true) :
    parseIso (tsBase y mo d hh mi ss ++ '.' :: (f6 ++ sgn :: (pad2 oh ++ ':' :: pad2 om))) =
      some ⟨y, mo, d, hh, mi, ss,
        if sgn == '+' then 60 * (oh : Int) + om else -(60 * (oh : Int) + om)⟩ := by
  have hshape : tsBase y mo d hh mi ss ++ '.' :: (f6 ++ sgn :: (pad2 oh ++ ':' :: pad2 om)) =
      pad4 y ++ '-' :: (pad2 mo ++ '-' :: (pad2 d ++ 'T' :: (pad2 hh ++ ':' ::
        (pad2 mi ++ ':' :: (pad2 ss ++ '.' ::
          (f6 ++ sgn :: (pad2 oh ++ ':' :: pad2 om))))))) := by
    simp [tsBase, List.append_assoc]
  have hsok : (sgn == '+' || sgn == '-') = true := by
    rcases hsgn with rfl | rfl <;> decide
  have hsd : Char.isDigit sgn = false := by
    rcases hsgn with rfl | rfl <;> decide
  rw [hshape]
  simp only [parseIso, parse4_pad4 y hy, Option.some_bind, expectC_cons,
    parse2_pad2 mo hmo, parse2_pad2 d hd, parse2_pad2 hh hhh, parse2_pad2 mi hmi,
    parse2_pad2 ss hss, parseFrac_wf f6 sgn oh om hf6 hfd hsd,
    parseOffset_wf sgn oh om hoh hom htot hsok]
  simp only [hvalid, if_true]

theorem padChar_mem2 (c : Char) (n : Nat) (h : c ∈ pad2 n) : ∃ k, c = digitChar k := by
  simp only [pad2, List.mem_cons, List.not_mem_nil, or_false] at h
  rcases h with rfl | rfl
  · exact ⟨_, rfl⟩
  · exact ⟨_, rfl⟩

theorem padChar_mem4 (c : Char) (n : Nat) (h : c ∈ pad4 n) : ∃ k, c = digitChar k := by
  simp only [pad4, List.mem_cons, List.not_mem_nil, or_false] at h
  rcases h with rfl | rfl | rfl | rfl
  · exact ⟨_, rfl⟩
  · exact ⟨_, rfl⟩
  · exact ⟨_, rfl⟩
  · exact ⟨_, rfl⟩

theorem tsBase_no_dot (y mo d hh mi ss : Nat) : '.' ∉ tsBase y mo d hh mi ss := by
  intro hmem
  simp only [tsBase, List.mem_append, List.mem_cons] at hmem
  rcases hmem with h | h | h | h | h | h | h | h | h | h | h <;>
    first
      | exact absurd h (by decide)
      | (obtain ⟨k, hk⟩ := padChar_mem2 _ _ h; exact digitChar_ne_dot k hk.symm)
      | (obtain ⟨k, hk⟩ := padChar_mem4 _ _ h; exact digitChar_ne_dot k hk.symm)

theorem tsBase_no_Z (y mo d hh mi ss : Nat) : 'Z' ∉ tsBase y mo d hh mi ss := by
  intro hmem
  simp only [tsBase, List.mem_append, List.mem_cons] at hmem
  rcases hmem with h | h | h | h | h | h | h | h | h | h | h <;>
    first
      | exact absurd h (by decide)
      | (obtain ⟨k, hk⟩ := padChar_mem2 _ _ h; exact digitChar_ne_Z k hk.symm)
      | (obtain ⟨k, hk⟩ := padChar_mem4 _ _ h; exact digitChar_ne_Z k hk.symm)

theorem tzPat_wf (sgn : Char) (oh om : Nat) (hsgn : sgn = '+' ∨ sgn = '-') :
    tzPat (sgn :: (pad2 oh ++ ':' :: pad2 om)) = true := by
  rcases hsgn with rfl | rfl <;>
    simp [pad2, tzPat,
      digitChar_isDigit _ (show oh / 10 % 10 < 10 by omega),
      digitChar_isDigit _ (show oh % 10 < 10 by omega),
      digitChar_isDigit _ (show om / 10 % 10 < 10 by omega),
      digitChar_isDigit _ (show om % 10 < 10 by omega)]

theorem fmtTs_ne_empty (y mo d hh mi ss : Nat) (frac : List Char) (sgn : Char)
    (oh om : Nat) : fmtTs y mo d hh mi ss frac sgn oh om ≠ "" := by
  intro h
  have h2 := congrArg String.data h
  simp only [fmtTs, tsBase, pad4, List.cons_append] at h2
  exact List.noConfusion h2

set_option maxHeartbeats 1600000 in
theorem parse_date_fmt (y mo d hh mi ss : Nat) (frac : List Char) (sgn : Char) (oh om : Nat)
    (hy1 : 1 ≤ y) (hy : y ≤ 9999) (hmo1 : 1 ≤ mo) (hmo : mo ≤ 12)
    (hd1 : 1 ≤ d) (hd : d ≤ daysInMonth y mo)
    (hhh : hh ≤ 23) (hmi : mi ≤ 59) (hss : ss ≤ 59)
    (hf : frac ≠ []) (hfd : ∀ c ∈ frac, c.isDigit = true)
    (hsgn : sgn = '+' ∨ sgn = '-') (hoh : oh ≤ 23) (hom : om ≤ 59)
    (hrange : pyMinDay ≤ utcDayOf ⟨y, mo, d, hh, mi, ss, offsetMin sgn oh om⟩ ∧
      utcDayOf ⟨y, mo, d, hh, mi, ss, offsetMin sgn oh om⟩ ≤ pyMaxDay) :
    parse_date (fmtTs y mo d hh mi ss frac sgn oh om) =
      some (fmtDate (fromDays (utcDayOf ⟨y, mo, d, hh, mi, ss, offsetMin sgn oh om⟩)).1
        (fromDays (utcDayOf ⟨y, mo, d, hh, mi, ss, offsetMin sgn oh om⟩)).2.1
        (fromDays (utcDayOf ⟨y, mo, d, hh, mi, ss, offsetMin sgn oh om⟩)).2.2) := by
  have hnorm : (normalize_iso (fmtTs y mo d hh mi ss frac sgn oh om)).toList =
      tsBase y mo d hh mi ss ++ '.' ::
        (padTrunc6 frac ++ (sgn :: (pad2 oh ++ ':' :: pad2 om))) := by
    rw [normalize_iso, if_neg (fmtTs_ne_empty y mo d hh mi ss frac sgn oh om)]
    show normCore (fmtTs y mo d hh mi ss frac sgn oh om).toList = _
    rw [show (fmtTs y mo d hh mi ss frac sgn oh om).toList =
        tsBase y mo d hh mi ss ++ '.' ::
          (frac ++ sgn :: (pad2 oh ++ ':' :: pad2 om)) from rfl]
    exact normCore_dotted _ _ _ (tsBase_no_dot y mo d hh mi ss) (tsBase_no_Z y mo d hh mi ss)
      hf hfd (tzPat_wf sgn oh om hsgn)
  have hdim : daysInMonth y mo ≤ 31 := by
    clear hd
    rcases mo with _|_|_|_|_|_|_|_|_|_|_|_|_|n
    all_goals simp [daysInMonth]
    cases isLeap y <;> simp
  have hvalid : dtValid ⟨y, mo, d, hh, mi, ss, offsetMin sgn oh om⟩ = true := by
    simp only [dtValid, Bool.and_eq_true, decide_eq_true_eq]
    omega
  have hpi := parseIso_fmt y mo d hh mi ss (padTrunc6 frac) sgn oh om
    hy (by omega) (by omega) (by omega) (by omega) (by omega)
    (padTrunc6_length frac) (padTrunc6_digits frac hfd) hsgn (by omega) (by omega)
    (by omega)
    (by rw [show (if sgn == '+' then 60 * (oh : Int) + om else -(60 * (oh : Int) + om)) =
          offsetMin sgn oh om from rfl]; exact hvalid)
  rw [parse_date, hnorm]
  rw [show tsBase y mo d hh mi ss ++ '.' ::
      (padTrunc6 frac ++ (sgn :: (pad2 oh ++ ':' :: pad2 om))) =
      tsBase y mo d hh mi ss ++ '.' ::
        (padTrunc6 frac ++ sgn :: (pad2 oh ++ ':' :: pad2 om)) from rfl]
  rw [hpi]
  exact if_pos hrange

theorem fmtTsZ_ne_empty (y mo d hh mi ss : Nat) (frac : List Char) :
    fmtTsZ y mo d hh mi ss frac ≠ "" := by
  intro h
  have h2 := congrArg String.data h
  simp only [fmtTsZ, tsBase, pad4, List.cons_append] at h2
  exact List.noConfusion h2

theorem normalize_iso_fmtTsZ (y mo d hh mi ss : Nat) (frac : List Char)
    (hf : frac ≠ []) (hfd : ∀ c ∈ frac, c.isDigit = true) :
    (normalize_iso (fmtTsZ y mo d hh mi ss frac)).toList =
      tsBase y mo d hh mi ss ++ '.' :: (padTrunc6 frac ++ '+' :: (pad2 0 ++ ':' :: pad2 0)) := by
  have hfz : 'Z' ∉ frac := fun hm => isDigit_ne_Z _ (hfd _ hm) rfl
  rw [normalize_iso, if_neg (fmtTsZ_ne_empty y mo d hh mi ss frac)]
  show normCore (fmtTsZ y mo d hh mi ss frac).toList = _
  rw [show (fmtTsZ y mo d hh mi ss frac).toList =
      tsBase y mo d hh mi ss ++ '.' :: (frac ++ ['Z']) from rfl]
  rw [normCore_replaceZ, replaceZ_append, replaceZ_id _ (tsBase_no_Z y mo d hh mi ss)]
  rw [show replaceZ ('.' :: (frac ++ ['Z'])) = '.' :: replaceZ (frac ++ ['Z']) from by
    simp [replaceZ]]
  rw [replaceZ_append, replaceZ_id frac hfz]
  rw [show replaceZ ['Z'] = '+' :: (pad2 0 ++ ':' :: pad2 0) from rfl]
  exact normCore_dotted _ _ _ (tsBase_no_dot y mo d hh mi ss) (tsBase_no_Z y mo d hh mi ss)
    hf hfd (tzPat_wf '+' 0 0 (Or.inl rfl))

/-- C8: For every block timestamp carrying a fractional-second part of any
digit count and a timezone designator (either `[+-]HH:MM` or `Z`, the latter
first rewritten to `+00:00`), `normalize_iso` pads or truncates the
fractional seconds to exactly 6 digits before parsing; the parsed instant is
converted to UTC (`astimezone(timezone.utc)`) and its calendar date is the
derived date; and inputs that do not parse as a valid timestamp are rejected
(`none`, an exception in the program) rather than mapped to a guessed date. -/
theorem timestamp_normalization (y mo d hh mi ss : Nat) (frac : List Char) (sgn : Char)
    (oh om : Nat)
    (hy1 : 1 ≤ y) (hy : y ≤ 9999) (hmo1 : 1 ≤ mo) (hmo : mo ≤ 12)
    (hd1 : 1 ≤ d) (hd : d ≤ daysInMonth y mo)
    (hhh : hh ≤ 23) (hmi : mi ≤ 59) (hss : ss ≤ 59)
    (hf : frac ≠ []) (hfd : ∀ c ∈ frac, c.isDigit = true)
    (hsgn : sgn = '+' ∨ sgn = '-') (hoh : oh ≤ 23) (hom : om ≤ 59)
    (hrange : pyMinDay ≤ utcDayOf ⟨y, mo, d, hh, mi, ss, offsetMin sgn oh om⟩ ∧
      utcDayOf ⟨y, mo, d, hh, mi, ss, offsetMin sgn oh om⟩ ≤ pyMaxDay) :
    ((padTrunc6 frac).length = 6 ∧
      (normalize_iso (fmtTs y mo d hh mi ss frac sgn oh om)).toList =
        tsBase y mo d hh mi ss ++ '.' ::
          (padTrunc6 frac ++ sgn :: (pad2 oh ++ ':' :: pad2 om))) ∧
    (normalize_iso (fmtTsZ y mo d hh mi ss frac)).toList =
      tsBase y mo d hh mi ss ++ '.' :: (padTrunc6 frac ++ '+' :: (pad2 0 ++ ':' :: pad2 0)) ∧
    parse_date (fmtTs y mo d hh mi ss frac sgn oh om) =
      some (fmtDate (fromDays (utcDayOf ⟨y, mo, d, hh, mi, ss, offsetMin sgn oh om⟩)).1
        (fromDays (utcDayOf ⟨y, mo, d, hh, mi, ss, offsetMin sgn oh om⟩)).2.1
        (fromDays (utcDayOf ⟨y, mo, d, hh, mi, ss, offsetMin sgn oh om⟩)).2.2) ∧
    parse_date "garbage" = none ∧
    parse_date "2024-13-01T00:00:00+00:00" = none := by
  refine ⟨⟨padTrunc6_length frac, ?_⟩,
    normalize_iso_fmtTsZ y mo d hh mi ss frac hf hfd,
    parse_date_fmt y mo d hh mi ss frac sgn oh om
      hy1 hy hmo1 hmo hd1 hd hhh hmi hss hf hfd hsgn hoh hom hrange,
    by decide, by decide⟩
  rw [normalize_iso, if_neg (fmtTs_ne_empty y mo d hh mi ss frac sgn oh om)]
  show normCore (fmtTs y mo d hh mi ss frac sgn oh om).toList = _
  rw [show (fmtTs y mo d hh mi ss frac sgn oh om).toList =
      tsBase y mo d hh mi ss ++ '.' :: (frac ++ sgn :: (pad2 oh ++ ':' :: pad2 om)) from rfl]
  exact normCore_dotted _ _ _ (tsBase_no_dot y mo d hh mi ss) (tsBase_no_Z y mo d hh mi ss)
    hf hfd (tzPat_wf sgn oh om hsgn)

theorem timestamp_normalization_witness :
    parse_date (fmtTs 2024 1 2 23 30 0 ['5'] '-' 3 30) = some "2024-01-03" ∧
    (normalize_iso (fmtTs 2024 1 2 23 30 0 ['5'] '-' 3 30)).toList =
      tsBase 2024 1 2 23 30 0 ++ '.' :: (padTrunc6 ['5'] ++ '-' :: (pad2 3 ++ ':' :: pad2 30)) ∧
    parse_date "garbage" = none := by
  have h := timestamp_normalization 2024 1 2 23 30 0 ['5'] '-' 3 30
    (by decide) (by decide) (by decide) (by decide) (by decide) (by decide)
    (by decide) (by decide) (by decide) (by decide) (by decide)
    (Or.inr rfl) (by decide) (by decide) (by decide)
  refine ⟨?_, h.1.2, h.2.2.2.1⟩
  rw [h.2.2.1]
  rfl

end HubMon
